import Mathlib

/-!
# QA.Stone codec (`qastone-parser.js`) — a shallow embedding

JavaScript strings are modelled as `List Char`.  The repository's text is
plain BMP text, where one JS UTF-16 code unit corresponds to one `Char`;
`charCodeAt` is modelled by `Char.toNat`.  JS `trim`, `split`, `substring`,
`indexOf`, `startsWith` are re-implemented below on `List Char` with the
same semantics (in particular `split` keeps empty pieces, and `split` on a
regular expression of the form `X+` treats a maximal run as one separator).
`new Date().toISOString()` is an explicit `timestamp` argument.
The mutable caches of the `QAStoneParser` object are an explicit
`ParserState`; the pure entry points below correspond to calls on a
freshly constructed parser.
-/

abbrev Str := List Char

/-- JS whitespace as it occurs in this repository (space, tab, CR, LF). -/
def isWsChar (c : Char) : Bool :=
  c = ' ' || c = '\t' || c = '\n' || c = '\r'

def isDigitChar (c : Char) : Bool :=
  '0' ≤ c && c ≤ '9'

/-- JS `\w`: `[A-Za-z0-9_]`. -/
def isWordChar (c : Char) : Bool :=
  ('a' ≤ c && c ≤ 'z') || ('A' ≤ c && c ≤ 'Z') || isDigitChar c || c = '_'

def isHexLowerChar (c : Char) : Bool :=
  isDigitChar c || ('a' ≤ c && c ≤ 'f')

/-- JS `s.trimStart()` (also the first half of `s.trim()`). -/
def trimLeft (s : Str) : Str := s.dropWhile isWsChar

/-- JS `s.trimEnd()`. -/
def trimRight (s : Str) : Str := (s.reverse.dropWhile isWsChar).reverse

/-- JS `s.trim()`. -/
def trim (s : Str) : Str := trimRight (trimLeft s)

/-- JS `s.startsWith(w)`: `startsW w s`. -/
def startsW : Str → Str → Bool
  | [], _ => true
  | _ :: _, [] => false
  | c :: w, d :: s => c = d && startsW w s

/-- Does `w` occur as a contiguous substring of `s`?  (Used to state the
hypotheses of the round-trip theorem; JS itself has no such call.) -/
def occurs (w : Str) : Str → Bool
  | [] => startsW w []
  | s@(_ :: t) => startsW w s || occurs w t

/-- JS `s.split(sep)` for a one-character separator (keeps empty pieces). -/
def splitChar (sep : Char) : Str → List Str
  | [] => [[]]
  | c :: rest =>
    if c = sep then [] :: splitChar sep rest
    else
      match splitChar sep rest with
      | [] => [[c]]
      | p :: ps => (c :: p) :: ps

/-- JS `pieces.join(sep)` for a one-character separator. -/
def joinChar (sep : Char) : List Str → Str
  | [] => []
  | [p] => p
  | p :: q :: r => p ++ sep :: joinChar sep (q :: r)

/-- JS `pieces.join(sep)` for a string separator. -/
def joinStr (sep : Str) : List Str → Str
  | [] => []
  | [p] => p
  | p :: q :: r => p ++ sep ++ joinStr sep (q :: r)

def splitLines (s : Str) : List Str := splitChar '\n' s

/-- Helper for JS `s.split(re)` where `re` matches a maximal nonempty run
of characters satisfying `P`; `inRun` records that the previous character
was part of a separator run (so further `P`-characters extend that run). -/
def splitRunsAux (P : Char → Bool) : Bool → Str → List Str
  | _, [] => [[]]
  | inRun, c :: rest =>
    if P c then
      if inRun then splitRunsAux P true rest
      else [] :: splitRunsAux P true rest
    else
      match splitRunsAux P false rest with
      | [] => [[c]]
      | p :: ps => (c :: p) :: ps

/-- JS `s.split(re)` where `re` matches a maximal nonempty run of
characters satisfying `P` (e.g. `/\s+/`, `/[.!?]+/`). -/
def splitRuns (P : Char → Bool) (s : Str) : List Str := splitRunsAux P false s

/-- Helper for JS `s.split(/\n\n+/)`: a separator is a maximal run of at
least two newlines; `inSep` records that the previous characters formed a
separator (so further newlines extend it). -/
def splitParasAux : Bool → Str → List Str
  | _, [] => [[]]
  | true, '\n' :: rest => splitParasAux true rest
  | false, '\n' :: '\n' :: rest => [] :: splitParasAux true rest
  | _, c :: rest =>
    match splitParasAux false rest with
    | [] => [[c]]
    | p :: ps => (c :: p) :: ps

/-- JS `s.split(/\n\n+/)`. -/
def splitParas (s : Str) : List Str := splitParasAux false s

def splitWs (s : Str) : List Str := splitRuns isWsChar s

/-- JS `s.indexOf(c)`, with `none` for `-1`. -/
def idxOfChar (c : Char) : Str → Option Nat
  | [] => none
  | d :: r => if d = c then some 0 else (idxOfChar c r).map (· + 1)

/-- Little-endian base-`base` digits of `n` (with enough `fuel`, e.g.
`fuel = n`); structural recursion so that concrete values reduce. -/
def digitsFuel (base : Nat) : Nat → Nat → List Nat
  | 0, _ => []
  | _ + 1, 0 => []
  | fuel + 1, n => n % base :: digitsFuel base fuel (n / base)

/-- Decimal digit characters of a natural number, JS `n.toString()`. -/
def natToDec (n : Nat) : Str :=
  if n = 0 then ['0']
  else ((digitsFuel 10 n n).map fun d => Char.ofNat (48 + d)).reverse

/-- Lowercase hexadecimal characters, JS `n.toString(16)`. -/
def natToHex (n : Nat) : Str :=
  if n = 0 then ['0']
  else ((digitsFuel 16 n n).map fun d =>
    if d < 10 then Char.ofNat (48 + d) else Char.ofNat (87 + d)).reverse

def decDigitsVal (ds : Str) : Nat :=
  ds.foldl (fun acc c => 10 * acc + (c.toNat - 48)) 0

/-- JS `parseInt(s, 10)`, with `none` for `NaN`. -/
def parseIntDec (s : Str) : Option Int :=
  let s1 := s.dropWhile isWsChar
  let (sgn, s2) : Int × Str :=
    match s1 with
    | '-' :: r => (-1, r)
    | '+' :: r => (1, r)
    | _ => (1, s1)
  let ds := s2.takeWhile isDigitChar
  if ds = [] then none else some (sgn * decDigitsVal ds)

/-- JS `parseInt(s, 10) || 0`. -/
def parseIntOr0 (s : Str) : Int :=
  match parseIntDec s with
  | none => 0
  | some v => v

/-- JS `v || dflt` on a nullable string (`null` and `""` are falsy). -/
def jsOr (v : Option Str) (dflt : Str) : Str :=
  match v with
  | none => dflt
  | some s => if s = [] then dflt else s

/-- JS `v || null` on a possibly-missing string piece. -/
def pieceOrNull (ps : List Str) (i : Nat) : Option Str :=
  match ps[i]? with
  | none => none
  | some p => if p = [] then none else some p

/-- JS 32-bit signed coercion (`x | 0`, `x & x` on an integer value). -/
def toInt32 (n : Int) : Int := (n + 2 ^ 31) % 2 ^ 32 - 2 ^ 31

-- ------------------------------------------------------------------
-- Data model
-- ------------------------------------------------------------------

structure Header where
  border_hash : Option Str := none
  glow_channel : Option Str := none
  stone_type : Option Str := none
  created : Option Str := none
  source_agent : Option Str := none
  lod_count : Int := 0
  fortune : Option Str := none
  raw_header : Str := []
deriving Repr, DecidableEq

structure Fortune where
  channel : Option Str
  category : Option Str
  complexity : Option Str
deriving Repr, DecidableEq

structure ChannelRule where
  defaultLod : Nat
  complexThreshold : Str
deriving Repr, DecidableEq

/-- A JS number-typed value as it flows through the `level` variable of
`assessRequiredLOD`: an integer-valued number, `undefined` (the result of
reading a missing property), or `NaN` (the result of arithmetic on
`undefined`). -/
inductive JsNum where
  | num (n : Int)
  | jsUndefined
  | nan
deriving Repr, DecidableEq

/-- JS `Math.min` on such values: each argument is coerced with
`ToNumber` (`undefined` becomes `NaN`), and any `NaN` argument makes the
result `NaN`. -/
def jsMin : JsNum → JsNum → JsNum
  | .num a, .num b => .num (min a b)
  | _, _ => .nan

/-- JS `Math.max`, as `jsMin`. -/
def jsMax : JsNum → JsNum → JsNum
  | .num a, .num b => .num (max a b)
  | _, _ => .nan

/-- JS `a >= b` on such values: any comparison involving `undefined` or
`NaN` is false. -/
def jsGe : JsNum → JsNum → Bool
  | .num a, .num b => decide (b ≤ a)
  | _, _ => false

structure TaskContext where
  needsFullContext : Bool := false
  quickAssessment : Bool := false
deriving Repr, DecidableEq

structure Assessment where
  level : JsNum
  reason : Str
  spawnHelper : Bool
  fortune : Fortune
  channel : Str
deriving Repr, DecidableEq

/-- Result of `getTokenSavings`.  `loadedTokens` is an `Option` because the
not-a-stone branch of the JS code returns an object literal in which the
`loadedTokens` property is absent. -/
structure TokenSavings where
  saved : Int
  percentage : Int
  headerTokens : Nat
  loadedTokens : Option Nat
  fullTokens : Nat
deriving Repr, DecidableEq

/-- The single `FormatError` of the codec
(`throw new Error('Not a valid QA.Stone format')`). -/
inductive FormatError where
  | notAValidQAStoneFormat
deriving Repr, DecidableEq

/-- Argument object of `buildStone`, with the JS default values.  A
caller-supplied `lods` map is modelled as its four levels. -/
structure LodMap where
  l0 : Str
  l1 : Str
  l2 : Str
  l3 : Str
deriving Repr, DecidableEq

structure StoneOpts where
  content : Str
  glow_channel : Str := "context".data
  stone_type : Str := "clipboard".data
  source_agent : Str := "user".data
  lods : Option LodMap := none
deriving Repr, DecidableEq

-- ------------------------------------------------------------------
-- The codec
-- ------------------------------------------------------------------

def qastoneOpen : Str := "§QASTONE§".data
def qastoneClose : Str := "§/QASTONE§".data
def sepLine : Str := "─".data

/-- The own keys of `this.channelRules` from the constructor. -/
def channelRules (c : Str) : Option ChannelRule :=
  if c = "task".data then some ⟨0, "complex".data⟩
  else if c = "context".data then some ⟨1, "medium".data⟩
  else if c = "handoff".data then some ⟨1, "complex".data⟩
  else if c = "query".data then some ⟨0, "medium".data⟩
  else if c = "data".data then some ⟨2, "simple".data⟩
  else none

/-- The own property names of `Object.prototype`.  `this.channelRules` is
a plain object literal, so `this.channelRules[channel]` also finds these
inherited members; each of them is truthy (a function, or for `__proto__`
the prototype object itself), never a rules record. -/
def objectProtoKeys : List Str :=
  ["constructor".data, "hasOwnProperty".data, "isPrototypeOf".data,
   "propertyIsEnumerable".data, "toLocaleString".data, "toString".data,
   "valueOf".data, "__defineGetter__".data, "__defineSetter__".data,
   "__lookupGetter__".data, "__lookupSetter__".data, "__proto__".data]

/-- The value of `this.channelRules[channel] || {defaultLod: 1,
complexThreshold: 'medium'}`: a rules record (an own key, or the `||`
default when the lookup yields the falsy `undefined`), or a truthy
inherited `Object.prototype` member, which the `||` keeps. -/
inductive RulesVal where
  | record (r : ChannelRule)
  | protoJunk
deriving Repr, DecidableEq

def rulesLookup (channel : Str) : RulesVal :=
  match channelRules channel with
  | some r => .record r
  | none =>
    if channel ∈ objectProtoKeys then .protoJunk
    else .record ⟨1, "medium".data⟩

/-- `rules.defaultLod` as a JS number-typed value: reading `defaultLod`
off an inherited `Object.prototype` member yields `undefined`. -/
def rulesDefaultLod : RulesVal → JsNum
  | .record r => .num r.defaultLod
  | .protoJunk => .jsUndefined

/-- `isQAStone(content)`: the `typeof` guard cannot be crossed by a
`List Char`, and `!content` rejects exactly the empty string. -/
def isQAStone (content : Str) : Bool :=
  if content = [] then false
  else startsW qastoneOpen (trim content)

/-- The `switch (key)` of the `parseHeader` loop body. -/
def processSwitch (key value : Str) (h : Header) : Header :=
  if key = "border_hash".data then { h with border_hash := some value }
  else if key = "glow_channel".data then { h with glow_channel := some value }
  else if key = "stone_type".data then { h with stone_type := some value }
  else if key = "created".data then { h with created := some value }
  else if key = "source_agent".data then { h with source_agent := some value }
  else if key = "lod_count".data then { h with lod_count := parseIntOr0 value }
  else if key = "fortune".data then { h with fortune := some value }
  else h

/-- One `key: value` line of the `parseHeader` loop body (the line is
already trimmed). -/
def processLine (t : Str) (h : Header) : Header :=
  match idxOfChar ':' t with
  | none => h
  | some ci =>
    if ci > 0 then
      processSwitch (trim (t.take ci)) (trim (t.drop (ci + 1))) h
    else h

/-- The `for (let i = 0; i < lines.length && i < 15; i++)` loop of
`parseHeader`; returns the accumulated header and `some i` when the loop
broke at a lone `─` line at index `i`. -/
def phLoop : List Str → Nat → Header → Header × Option Nat
  | [], _, h => (h, none)
  | l :: ls, i, h =>
    if i < 15 then
      let t := trim l
      if t = sepLine then (h, some i)
      else phLoop ls (i + 1) (processLine t h)
    else (h, none)

/-- The non-throwing part of `parseHeader` (the computation performed when
`isQAStone` holds; the header cache of a fresh parser is transparent). -/
def parseHeaderCore (content : Str) : Header :=
  let lines := splitLines content
  let (h, brk) := phLoop lines 0 {}
  let headerEndIndex := brk.getD 0
  { h with raw_header := joinChar '\n' (lines.take (headerEndIndex + 1)) }

/-- `parseHeader(content)`. -/
def parseHeader (content : Str) : Except FormatError Header :=
  if isQAStone content then .ok (parseHeaderCore content)
  else .error .notAValidQAStoneFormat

/-- `parseFortune(fortune)`. -/
def parseFortune (fortune : Option Str) : Fortune :=
  match fortune with
  | none => ⟨none, none, none⟩
  | some f =>
    if f = [] then ⟨none, none, none⟩
    else
      let parts := splitChar ':' f
      ⟨pieceOrNull parts 0, pieceOrNull parts 1, pieceOrNull parts 2⟩

def lodMarker (level : Nat) : Str := "LOD-".data ++ natToDec level ++ [':']

/-- The line loop of `extractLOD` (`inLod` flag, `break` on a terminator). -/
def lodScan (marker : Str) : List Str → Bool → Str → Str
  | [], _, acc => acc
  | l :: ls, inLod, acc =>
    if startsW marker l then
      lodScan marker ls true (trim (l.drop marker.length))
    else if inLod then
      if trim l = sepLine || startsW "LOD-".data l || l = qastoneClose then acc
      else lodScan marker ls inLod (acc ++ '\n' :: l)
    else lodScan marker ls false acc

/-- `extractLOD(content, level)` on a fresh parser (empty LOD cache). -/
def extractLOD (content : Str) (level : Nat) : Str :=
  if isQAStone content then
    trim (lodScan (lodMarker level) (splitLines content) false [])
  else content

/-- `extractLODsUpTo(content, maxLevel)`: the result object's numeric keys
enumerate in ascending order. -/
def extractLODsUpTo (content : Str) (maxLevel : Nat) : List (Nat × Str) :=
  (List.range (maxLevel + 1)).filterMap fun level =>
    let c := extractLOD content level
    if c = [] then none else some (level, c)

/-- `assessRequiredLOD(header, taskContext)`.  The JS body initialises
`level`, `reason`, `spawnHelper` and then conditionally reassigns them in
four steps; each `let … := if …` below is one of those reassignments. -/
def assessRequiredLOD (header : Header) (tc : TaskContext := {}) : Assessment :=
  let fortune := parseFortune header.fortune
  let channel := jsOr header.glow_channel "context".data
  let rules := rulesLookup channel
  let l0 := rulesDefaultLod rules
  let r0 := "Default for ".data ++ channel ++ " channel".data
  let isSimple := fortune.complexity = some "simple".data
  let isComplex := fortune.complexity = some "complex".data
  let l1 := if isSimple then jsMin l0 (.num 0)
    else if isComplex then jsMax l0 (.num 2) else l0
  let r1 :=
    if isSimple then "Simple task, LOD-0 sufficient".data
    else if isComplex then
      if header.lod_count ≥ 4 then "Very complex, spawning helper for LOD-3".data
      else "Complex task, need full context".data
    else r0
  let spawnHelper :=
    if isSimple then false
    else if isComplex then decide (header.lod_count ≥ 4)
    else false
  let l2 := if tc.needsFullContext then jsMax l1 (.num 2) else l1
  let r2 := if tc.needsFullContext then "Task requires full context".data else r1
  let l3 := if tc.quickAssessment then JsNum.num 0 else l2
  let r3 := if tc.quickAssessment then "Quick assessment mode".data else r2
  let isHandoff := header.stone_type = some "handoff".data ∧ ¬isSimple
  let l4 := if isHandoff then jsMax l3 (.num 1) else l3
  let r4 := if isHandoff then "Handoff requires at least LOD-1".data else r3
  ⟨l4, r4, spawnHelper, fortune, channel⟩

/-- `estimateTokens(content)`: `Math.ceil(words * 0.75)` where
`words = content.split(/\s+/).length`; `⌈3w/4⌉ = (3w+3)/4`. -/
def estimateTokens (content : Str) : Nat :=
  if content = [] then 0
  else (3 * (splitWs content).length + 3) / 4

/-- Rounding of `Math.round` on the exact rational value
(round half toward positive infinity). -/
def jsRound (q : ℚ) : Int := ⌊q + 1 / 2⌋

/-- `getTokenSavings(content, loadedLevel)`.  In the not-a-stone branch the
JS object literal has no `loadedTokens` property. -/
def getTokenSavings (content : Str) (loadedLevel : Nat) : TokenSavings :=
  if isQAStone content then
    let header := parseHeaderCore content
    let headerTokens := estimateTokens header.raw_header
    let allLods := extractLODsUpTo content 3
    let fullContent := joinStr "\n\n".data (allLods.map (·.2))
    let fullTokens := estimateTokens fullContent
    let loadedLods := extractLODsUpTo content loadedLevel
    let loadedContent := joinStr "\n\n".data (loadedLods.map (·.2))
    let loadedTokens := estimateTokens loadedContent + headerTokens
    let saved : Int := (fullTokens : Int) - (loadedTokens : Int)
    -- `Math.round((saved / fullTokens) * 100)`, written as the equivalent
    -- integer floor division `⌊(200·saved + fullTokens) / (2·fullTokens)⌋`
    -- so that concrete stones evaluate by `decide`; the equality with the
    -- `⌊· + 1/2⌋` rounding of the rational value is `jsRound_eq_div` below.
    let percentage : Int :=
      if fullTokens > 0 then (200 * saved + (fullTokens : Int)) / (2 * (fullTokens : Int))
      else 0
    ⟨saved, percentage, headerTokens, some loadedTokens, fullTokens⟩
  else
    { saved := 0, percentage := 0, headerTokens := 0,
      loadedTokens := none, fullTokens := 0 }

/-- `_generateHash(content)`'s loop body:
`hash = ((hash << 5) - hash) + code; hash = hash & hash`. -/
def hashStep (h : Int) (c : Char) : Int :=
  toInt32 (toInt32 (h * 32) - h + c.toNat)

/-- `_generateHash(content)`. -/
def generateHash (content : Str) : Str :=
  let h := content.foldl hashStep 0
  let hex := natToHex h.natAbs
  (List.replicate (8 - hex.length) '0' ++ hex).take 8

def isPunctChar (c : Char) : Bool := c = '.' || c = '!' || c = '?'

/-- `_generateLODs(content)`. -/
def generateLODs (content : Str) : LodMap :=
  let sentences := (splitRuns isPunctChar content).filter fun s => trim s ≠ []
  let paragraphs := (splitParas content).filter fun p => trim p ≠ []
  let lod0a :=
    match sentences with
    | [] => content.take 100
    | s :: _ => s
  let lod0b :=
    if sentences.length > 1 && lod0a.length < 50 then
      lod0a ++ ". ".data ++ sentences[1]!
    else lod0a
  let lod0 := lod0b.take 150
  let lod1a :=
    match paragraphs with
    | [] => content.take 500
    | p :: _ => p
  let lod1b :=
    if lod1a.length < 100 && paragraphs.length > 1 then
      lod1a ++ "\n\n".data ++ paragraphs[1]!
    else lod1a
  let lod1 := lod1b.take 500
  ⟨lod0, lod1, content, []⟩

/-- Does one of the words of `ws` occur in `s` bounded by `\b` on both
sides (JS `/\b(w1|w2|…)\b/.test(s)`)?  `prev` is the character to the left
of the current position (`none` at the start of the string). -/
def hasWordAux (ws : List Str) (prev : Option Char) : Str → Bool
  | [] => false
  | s@(c :: rest) =>
    (ws.any fun w =>
      (match prev with | none => true | some p => !isWordChar p) &&
      startsW w s &&
      (match s.drop w.length with
       | [] => true
       | d :: _ => !isWordChar d)) ||
    hasWordAux ws (some c) rest

def hasWord (ws : List Str) (s : Str) : Bool := hasWordAux ws none s

/-- `_calculateFortune(content, channel)`.  `content.toLowerCase()` is
modelled with `Char.toLower` (the keyword vocabulary is ASCII). -/
def calculateFortune (content : Str) (channel : Str) : Str :=
  let contentLower := content.map Char.toLower
  let category :=
    if hasWord ["git".data, "repo".data, "github".data, "commit".data] contentLower then
      "repo".data
    else if hasWord ["api".data, "endpoint".data, "route".data] contentLower then
      "api".data
    else if hasWord ["database".data, "sql".data, "query".data] contentLower then
      "database".data
    else if hasWord ["ui".data, "component".data, "style".data] contentLower then
      "ui".data
    else if hasWord ["test".data, "spec".data, "assert".data] contentLower then
      "test".data
    else "general".data
  let wordCount := (splitWs content).length
  let complexity :=
    if wordCount > 200 then "complex".data
    else if wordCount > 50 then "medium".data
    else "simple".data
  channel ++ ':' :: category ++ ':' :: complexity

/-- `Object.values(lodLevels).filter(v => v).length` for the level map. -/
def lodCountOf (m : LodMap) : Nat :=
  ([m.l0, m.l1, m.l2, m.l3].filter (· ≠ [])).length

/-- The fixed header template of `buildStone` (the template literal
`§QASTONE§\nborder_hash: …\n…\nfortune: …\n─`). -/
def stoneHeaderStr (bh gc st cr sa : Str) (lc : Nat) (ft : Str) : Str :=
  "§QASTONE§".data ++ '\n' ::
  "border_hash: ".data ++ bh ++ '\n' ::
  "glow_channel: ".data ++ gc ++ '\n' ::
  "stone_type: ".data ++ st ++ '\n' ::
  "created: ".data ++ cr ++ '\n' ::
  "source_agent: ".data ++ sa ++ '\n' ::
  "lod_count: ".data ++ natToDec lc ++ '\n' ::
  "fortune: ".data ++ ft ++ '\n' :: sepLine

/-- One `\nLOD-${level}: ${text}\n─` block appended by the loop of
`buildStone` when `lodLevels[level]` is truthy. -/
def lodBlockStr (level : Nat) (text : Str) : Str :=
  if text = [] then []
  else '\n' :: "LOD-".data ++ natToDec level ++ ':' :: ' ' :: text ++ '\n' :: sepLine

/-- `buildStone(options)`, with the `new Date().toISOString()` timestamp
as an explicit argument. -/
def buildStone (o : StoneOpts) (timestamp : Str) : Str :=
  let border_hash := generateHash o.content
  let lodLevels := o.lods.getD (generateLODs o.content)
  let fortune := calculateFortune o.content o.glow_channel
  let lodCount := lodCountOf lodLevels
  stoneHeaderStr border_hash o.glow_channel o.stone_type timestamp
      o.source_agent lodCount fortune ++
    lodBlockStr 0 lodLevels.l0 ++ lodBlockStr 1 lodLevels.l1 ++
    lodBlockStr 2 lodLevels.l2 ++ lodBlockStr 3 lodLevels.l3 ++
    '\n' :: qastoneClose

-- ------------------------------------------------------------------
-- The stateful parser object (caches)
-- ------------------------------------------------------------------

/-- The two `Map`s owned by a `QAStoneParser` instance, as association
lists (first matching key wins on lookup, as for `Map.get`). -/
structure ParserState where
  lodCache : List (Str × Str) := []
  headerCache : List (Str × Header) := []
deriving Repr, DecidableEq

def mapGet {α : Type} (m : List (Str × α)) (k : Str) : Option α :=
  (m.find? fun p => p.1 = k).map (·.2)

def mapSet {α : Type} (m : List (Str × α)) (k : Str) (v : α) : List (Str × α) :=
  if (m.find? fun p => p.1 = k).isSome then
    m.map fun p => if p.1 = k then (k, v) else p
  else m ++ [(k, v)]

/-- `extractLOD(content, level)` on a live parser: the cache key is
`` `${content.substring(0, 50)}:${level}` ``. -/
def extractLODSt (st : ParserState) (content : Str) (level : Nat) :
    Str × ParserState :=
  if isQAStone content then
    let key := content.take 50 ++ ':' :: natToDec level
    match mapGet st.lodCache key with
    | some v => (v, st)
    | none =>
      let r := trim (lodScan (lodMarker level) (splitLines content) false [])
      (r, { st with lodCache := mapSet st.lodCache key r })
  else (content, st)

/-- `clearCache()`. -/
def clearCache (_ : ParserState) : ParserState := {}

-- ------------------------------------------------------------------
-- Line-level views of a built stone (used to state and prove the
-- decomposition of `splitLines (buildStone …)`)
-- ------------------------------------------------------------------

/-- The nine header lines of a built stone (the lines of
`stoneHeaderStr`, provided all interpolated values are newline-free). -/
def stoneHeaderLines (bh gc st cr sa : Str) (lc : Nat) (ft : Str) : List Str :=
  ["§QASTONE§".data,
   "border_hash: ".data ++ bh,
   "glow_channel: ".data ++ gc,
   "stone_type: ".data ++ st,
   "created: ".data ++ cr,
   "source_agent: ".data ++ sa,
   "lod_count: ".data ++ natToDec lc,
   "fortune: ".data ++ ft,
   sepLine]

/-- The lines contributed by one `\nLOD-${level}: ${text}\n─` block. -/
def blockLines (level : Nat) (text : Str) : List Str :=
  if text = [] then []
  else
    match splitLines text with
    | [] => []
    | p :: ps =>
      ("LOD-".data ++ natToDec level ++ ':' :: ' ' :: p) :: (ps ++ [sepLine])

-- ------------------------------------------------------------------
-- Basic lemmas: startsW, occurs
-- ------------------------------------------------------------------

theorem startsW_self_append (w r : Str) : startsW w (w ++ r) = true := by
  induction w with
  | nil => rfl
  | cons c t ih => simp [startsW, ih]

theorem startsW_extend {w s : Str} (h : startsW w s = true) (r : Str) :
    startsW w (s ++ r) = true := by
  induction w generalizing s with
  | nil => rfl
  | cons c t ih =>
    cases s with
    | nil => simp [startsW] at h
    | cons d u =>
      simp only [startsW, Bool.and_eq_true, decide_eq_true_eq] at h
      simp [startsW, h.1, ih h.2]

theorem startsW_mono {w e s : Str} (h : startsW (w ++ e) s = true) :
    startsW w s = true := by
  induction w generalizing s with
  | nil => rfl
  | cons c t ih =>
    cases s with
    | nil => simp [startsW] at h
    | cons d u =>
      simp only [List.cons_append, startsW, Bool.and_eq_true,
        decide_eq_true_eq] at h ⊢
      exact ⟨h.1, ih h.2⟩

theorem startsW_split {w a z : Str} (h : startsW w (a ++ z) = true) :
    (startsW w a = true) ∨ (∃ w2, w = a ++ w2 ∧ startsW w2 z = true) := by
  induction a generalizing w with
  | nil => exact Or.inr ⟨w, rfl, h⟩
  | cons c t ih =>
    cases w with
    | nil => exact Or.inl rfl
    | cons d u =>
      simp only [List.cons_append, startsW, Bool.and_eq_true,
        decide_eq_true_eq] at h
      rcases ih h.2 with h' | ⟨w2, rfl, hw2⟩
      · exact Or.inl (by simp [startsW, h.1, h'])
      · exact Or.inr ⟨w2, by simp [h.1], hw2⟩

theorem startsW_nil_iff (w : Str) : startsW w [] = true ↔ w = [] := by
  cases w <;> simp [startsW]

theorem occurs_nil_def (w : Str) : occurs w [] = startsW w [] := rfl

theorem occurs_cons (w : Str) (c : Char) (t : Str) :
    occurs w (c :: t) = (startsW w (c :: t) || occurs w t) := rfl

theorem occurs_of_startsW {w s : Str} (h : startsW w s = true) :
    occurs w s = true := by
  cases s with
  | nil => simpa [occurs_nil_def] using h
  | cons c t => simp [occurs_cons, h]

theorem occurs_nil_any (s : Str) : occurs ([] : Str) s = true :=
  occurs_of_startsW (by cases s <;> simp [startsW])

theorem occurs_append_right {w b : Str} (a : Str) (h : occurs w b = true) :
    occurs w (a ++ b) = true := by
  induction a with
  | nil => simpa using h
  | cons c t ih => simp [occurs_cons, ih]

theorem occurs_append_left {w a : Str} (h : occurs w a = true) (b : Str) :
    occurs w (a ++ b) = true := by
  induction a with
  | nil =>
    rw [occurs_nil_def, startsW_nil_iff] at h
    subst h
    simpa using occurs_nil_any b
  | cons c t ih =>
    rw [occurs_cons, Bool.or_eq_true] at h
    rcases h with h | h
    · exact occurs_of_startsW (by simpa using startsW_extend h b)
    · simp [occurs_cons, ih h]

theorem occurs_sub {w t s : Str} (a b : Str) (hs : s = a ++ t ++ b)
    (h : occurs w t = true) : occurs w s = true := by
  subst hs
  rw [List.append_assoc]
  exact occurs_append_right a (occurs_append_left h b)

theorem occurs_take {w s : Str} (n : Nat) (h : occurs w (s.take n) = true) :
    occurs w s = true := by
  have := occurs_append_left h (s.drop n)
  rwa [List.take_append_drop] at this

theorem startsW_length_le {w s : Str} (h : startsW w s = true) :
    w.length ≤ s.length := by
  induction w generalizing s with
  | nil => simp
  | cons c t ih =>
    cases s with
    | nil => simp [startsW] at h
    | cons d u =>
      simp only [startsW, Bool.and_eq_true] at h
      simpa using ih h.2

theorem not_occurs_mid {w b : Str} (m : Str) (hw : w ≠ [])
    (hb : occurs w b = false) (hmw : ∀ c ∈ m, c ∉ w) :
    occurs w (m ++ b) = false := by
  induction m with
  | nil => simpa using hb
  | cons c m' ihm =>
    have h1 : startsW w (c :: (m' ++ b)) = false := by
      cases w with
      | nil => exact absurd rfl hw
      | cons d u =>
        by_contra hcon
        rw [Bool.not_eq_false] at hcon
        simp only [startsW, Bool.and_eq_true, decide_eq_true_eq] at hcon
        exact hmw c (by simp) (hcon.1 ▸ List.mem_cons_self d u)
    rw [List.cons_append, occurs_cons, h1, Bool.false_or]
    exact ihm fun c hc => hmw c (List.mem_cons_of_mem _ hc)

theorem not_occurs_append3 {w : Str} (a m b : Str) (hw : w ≠ [])
    (hm : m ≠ []) (ha : occurs w a = false) (hb : occurs w b = false)
    (hmw : ∀ c ∈ m, c ∉ w) : occurs w (a ++ m ++ b) = false := by
  rw [List.append_assoc]
  induction a with
  | nil => simpa using not_occurs_mid m hw hb hmw
  | cons c a' iha =>
    have ha2 : startsW w (c :: a') = false ∧ occurs w a' = false := by
      rw [occurs_cons, Bool.or_eq_false_iff] at ha
      exact ha
    have hfirst : startsW w (c :: (a' ++ (m ++ b))) = false := by
      by_contra hcon
      rw [Bool.not_eq_false] at hcon
      have hcon2 : startsW w ((c :: a') ++ (m ++ b)) = true := by simpa using hcon
      rcases startsW_split hcon2 with h1 | ⟨w2, hw2eq, hw2⟩
      · exact absurd h1 (by simp [ha2.1])
      · cases w2 with
        | nil =>
          rw [List.append_nil] at hw2eq
          have hself := startsW_self_append w ([] : Str)
          rw [List.append_nil] at hself
          have hfalse := ha2.1
          rw [← hw2eq] at hfalse
          rw [hfalse] at hself
          exact Bool.false_ne_true hself
        | cons e w2' =>
          cases m with
          | nil => exact absurd rfl hm
          | cons cm m' =>
            have he : e = cm := by
              simp only [List.cons_append, startsW, Bool.and_eq_true,
                decide_eq_true_eq] at hw2
              exact hw2.1
            refine hmw cm (by simp) ?_
            rw [hw2eq, he]
            exact List.mem_append_right _ (List.mem_cons_self _ _)
    rw [List.cons_append, occurs_cons, hfirst, Bool.false_or]
    exact iha ha2.2

-- ------------------------------------------------------------------
-- splitChar / joinChar structure
-- ------------------------------------------------------------------

theorem splitChar_ne_nil (sep : Char) (s : Str) : splitChar sep s ≠ [] := by
  cases s with
  | nil => simp [splitChar]
  | cons c rest =>
    simp only [splitChar]
    split
    · simp
    · split <;> simp

theorem splitChar_cons_sep (sep : Char) (rest : Str) :
    splitChar sep (sep :: rest) = [] :: splitChar sep rest := by
  simp [splitChar]

theorem splitChar_cons_ne {sep c : Char} (hc : ¬c = sep) {rest p : Str}
    {ps : List Str} (hr : splitChar sep rest = p :: ps) :
    splitChar sep (c :: rest) = (c :: p) :: ps := by
  simp only [splitChar, if_neg hc, hr]

theorem splitChar_append_sep (sep : Char) (a b : Str) :
    splitChar sep (a ++ sep :: b) = splitChar sep a ++ splitChar sep b := by
  induction a with
  | nil => simp [splitChar]
  | cons c t ih =>
    rw [List.cons_append]
    by_cases hc : c = sep
    · subst hc
      rw [splitChar_cons_sep, splitChar_cons_sep, ih, List.cons_append]
    · rcases hsc : splitChar sep t with _ | ⟨p, ps⟩
      · exact absurd hsc (splitChar_ne_nil sep t)
      · have h2 : splitChar sep (t ++ sep :: b) = p :: (ps ++ splitChar sep b) := by
          rw [ih, hsc, List.cons_append]
        rw [splitChar_cons_ne hc h2, splitChar_cons_ne hc hsc, List.cons_append]

theorem splitChar_no_sep {sep : Char} {a : Str} (h : sep ∉ a) :
    splitChar sep a = [a] := by
  induction a with
  | nil => rfl
  | cons c t ih =>
    have hc : ¬(c = sep) := fun hcc => h (hcc ▸ List.mem_cons_self c t)
    have ht : sep ∉ t := fun htc => h (List.mem_cons_of_mem c htc)
    simp only [splitChar, if_neg hc, ih ht]

theorem joinChar_splitChar (sep : Char) (s : Str) :
    joinChar sep (splitChar sep s) = s := by
  induction s with
  | nil => rfl
  | cons c t ih =>
    simp only [splitChar]
    by_cases hc : c = sep
    · rw [if_pos hc]
      rcases hsc : splitChar sep t with _ | ⟨p, ps⟩
      · exact absurd hsc (splitChar_ne_nil sep t)
      · rw [hsc] at ih
        rw [show joinChar sep ([] :: p :: ps) = [] ++ sep :: joinChar sep (p :: ps) from rfl]
        rw [ih, hc]
        rfl
    · rw [if_neg hc]
      rcases hsc : splitChar sep t with _ | ⟨p, ps⟩
      · exact absurd hsc (splitChar_ne_nil sep t)
      · rw [hsc] at ih
        cases ps with
        | nil =>
          rw [show joinChar sep [c :: p] = c :: p from rfl]
          rw [show joinChar sep [p] = p from rfl] at ih
          rw [ih]
        | cons q qs =>
          rw [show joinChar sep ((c :: p) :: q :: qs) =
              (c :: p) ++ sep :: joinChar sep (q :: qs) from rfl]
          rw [show joinChar sep (p :: q :: qs) =
              p ++ sep :: joinChar sep (q :: qs) from rfl] at ih
          rw [List.cons_append, ih]

theorem joinChar_append (sep : Char) (A B : List Str) (hA : A ≠ [])
    (hB : B ≠ []) :
    joinChar sep (A ++ B) = joinChar sep A ++ sep :: joinChar sep B := by
  induction A with
  | nil => exact absurd rfl hA
  | cons p A' ih =>
    cases A' with
    | nil =>
      cases B with
      | nil => exact absurd rfl hB
      | cons q B' => rfl
    | cons r A'' =>
      have h2 := ih (by simp)
      calc joinChar sep ((p :: r :: A'') ++ B)
          = p ++ sep :: joinChar sep ((r :: A'') ++ B) := rfl
        _ = p ++ sep :: (joinChar sep (r :: A'') ++ sep :: joinChar sep B) := by
            rw [h2]
        _ = (p ++ sep :: joinChar sep (r :: A'')) ++ sep :: joinChar sep B := by
            simp
        _ = joinChar sep (p :: r :: A'') ++ sep :: joinChar sep B := rfl

theorem splitChar_join {sep : Char} {L : List Str} (hL : L ≠ [])
    (h : ∀ p ∈ L, sep ∉ p) : splitChar sep (joinChar sep L) = L := by
  induction L with
  | nil => exact absurd rfl hL
  | cons p L' ih =>
    cases L' with
    | nil => simpa [joinChar] using splitChar_no_sep (h p (by simp))
    | cons q L'' =>
      rw [show joinChar sep (p :: q :: L'') =
          p ++ sep :: joinChar sep (q :: L'') from rfl]
      rw [splitChar_append_sep, splitChar_no_sep (h p (by simp))]
      rw [ih (by simp) (fun r hr => h r (List.mem_cons_of_mem p hr))]
      rfl

theorem splitChar_head_pre {sep : Char} {s p : Str} {ps : List Str}
    (h : splitChar sep s = p :: ps) : ∃ b, s = p ++ b := by
  induction s generalizing p ps with
  | nil =>
    simp only [splitChar, List.cons.injEq] at h
    exact ⟨[], by simp [h.1.symm]⟩
  | cons c t ih =>
    simp only [splitChar] at h
    by_cases hc : c = sep
    · rw [if_pos hc] at h
      rcases List.cons.injEq .. ▸ h with ⟨rfl, -⟩
      exact ⟨c :: t, rfl⟩
    · rw [if_neg hc] at h
      rcases hsc : splitChar sep t with _ | ⟨q, qs⟩
      · exact absurd hsc (splitChar_ne_nil sep t)
      · rw [hsc] at h
        rcases List.cons.injEq .. ▸ h with ⟨rfl, -⟩
        rcases ih hsc with ⟨b, rfl⟩
        exact ⟨b, rfl⟩

theorem splitChar_piece_sub {sep : Char} {p : Str} {s : Str}
    (h : p ∈ splitChar sep s) : ∃ a b, s = a ++ p ++ b := by
  induction s generalizing p with
  | nil =>
    simp only [splitChar, List.mem_singleton] at h
    exact ⟨[], [], by simp [h]⟩
  | cons c t ih =>
    simp only [splitChar] at h
    by_cases hc : c = sep
    · rw [if_pos hc] at h
      rcases List.mem_cons.mp h with rfl | h2
      · exact ⟨[], c :: t, by simp⟩
      · rcases ih h2 with ⟨a, b, rfl⟩
        exact ⟨c :: a, b, by simp⟩
    · rw [if_neg hc] at h
      rcases hsc : splitChar sep t with _ | ⟨q, qs⟩
      · exact absurd hsc (splitChar_ne_nil sep t)
      · rw [hsc] at h
        rcases List.mem_cons.mp h with rfl | h2
        · rcases splitChar_head_pre hsc with ⟨b, rfl⟩
          exact ⟨[], b, by simp⟩
        · rcases ih (hsc ▸ List.mem_cons_of_mem q h2) with ⟨a, b, rfl⟩
          exact ⟨c :: a, b, by simp⟩

theorem splitChar_sep_not_mem {sep : Char} {p s : Str}
    (h : p ∈ splitChar sep s) : sep ∉ p := by
  induction s generalizing p with
  | nil =>
    simp only [splitChar, List.mem_singleton] at h
    simp [h]
  | cons c t ih =>
    simp only [splitChar] at h
    by_cases hc : c = sep
    · rw [if_pos hc] at h
      rcases List.mem_cons.mp h with rfl | h2
      · simp
      · exact ih h2
    · rw [if_neg hc] at h
      rcases hsc : splitChar sep t with _ | ⟨q, qs⟩
      · exact absurd hsc (splitChar_ne_nil sep t)
      · rw [hsc] at h
        rcases List.mem_cons.mp h with rfl | h2
        · intro hmem
          rcases List.mem_cons.mp hmem with rfl | hmem2
          · exact hc rfl
          · exact ih (hsc ▸ List.mem_cons_self q qs) hmem2
        · exact ih (hsc ▸ List.mem_cons_of_mem q h2)

-- ------------------------------------------------------------------
-- trim lemmas
-- ------------------------------------------------------------------

theorem dropWhile_head_not {P : Char → Bool} {l r : Str} {c : Char}
    (h : l.dropWhile P = c :: r) : P c = false := by
  induction l with
  | nil => simp [List.dropWhile] at h
  | cons d t ih =>
    rw [List.dropWhile] at h
    rcases hd : P d
    · rw [hd] at h
      rcases List.cons.injEq .. ▸ h with ⟨rfl, -⟩
      exact hd
    · rw [hd] at h
      exact ih h

theorem dropWhile_decomp (P : Char → Bool) (l : Str) :
    ∃ t, t ++ l.dropWhile P = l := by
  induction l with
  | nil => exact ⟨[], rfl⟩
  | cons d u ih =>
    rw [List.dropWhile]
    rcases hd : P d
    · exact ⟨[], rfl⟩
    · rcases ih with ⟨t, ht⟩
      exact ⟨d :: t, by simp [ht]⟩

theorem trimLeft_cons_nonws {c : Char} (hc : isWsChar c = false) (s : Str) :
    trimLeft (c :: s) = c :: s := by
  simp [trimLeft, List.dropWhile, hc]

theorem trimLeft_cons_ws {c : Char} (hc : isWsChar c = true) (s : Str) :
    trimLeft (c :: s) = trimLeft s := by
  simp [trimLeft, List.dropWhile, hc]

theorem trimRight_append_nonws {c : Char} (hc : isWsChar c = false) (u : Str) :
    trimRight (u ++ [c]) = u ++ [c] := by
  simp [trimRight, List.dropWhile, hc]

theorem trimRight_eq_self {s : Str} (hs : s ≠ [])
    (h : isWsChar (s.getLast hs) = false) : trimRight s = s := by
  have hdec := List.dropLast_append_getLast hs
  calc trimRight s = trimRight (s.dropLast ++ [s.getLast hs]) := by rw [hdec]
    _ = s.dropLast ++ [s.getLast hs] := trimRight_append_nonws h _
    _ = s := hdec

theorem trimRight_nil : trimRight [] = [] := rfl

theorem trimRight_pre (s : Str) : ∃ t, trimRight s ++ t = s := by
  rcases dropWhile_decomp isWsChar s.reverse with ⟨t, ht⟩
  refine ⟨t.reverse, ?_⟩
  have := congrArg List.reverse ht
  simpa [trimRight] using this

theorem trimRight_append (a b : Str) :
    trimRight (a ++ b) = if trimRight b = [] then trimRight a else a ++ trimRight b := by
  simp only [trimRight, List.reverse_append, List.dropWhile_append]
  rcases hb : b.reverse.dropWhile isWsChar with _ | ⟨c, r⟩
  · simp [hb]
  · have : (b.reverse.dropWhile isWsChar).isEmpty = false := by simp [hb]
    simp [this, hb]

theorem trimRight_keeps {k : Str} (hk : k ≠ [])
    (hlast : isWsChar (k.getLast hk) = false) (w : Str) :
    trimRight (k ++ w) = k ++ trimRight w := by
  rw [trimRight_append]
  split
  · next h => rw [h, List.append_nil, trimRight_eq_self hk hlast]
  · rfl

theorem trim_ws_cons {c : Char} (hc : isWsChar c = true) (s : Str) :
    trim (c :: s) = trim s := by
  simp [trim, trimLeft_cons_ws hc]

theorem trim_eq_self {s : Str} (hs : s ≠ [])
    (hhead : isWsChar (s.head hs) = false)
    (hlast : isWsChar (s.getLast hs) = false) : trim s = s := by
  rcases s with _ | ⟨c, t⟩
  · exact absurd rfl hs
  · simp only [List.head_cons] at hhead
    rw [trim, trimLeft_cons_nonws hhead, trimRight_eq_self hs hlast]

theorem trim_nil : trim [] = [] := rfl

theorem trim_keyline {k : Str} (hk : k ≠ [])
    (hhead : isWsChar (k.head hk) = false)
    (hlast : isWsChar (k.getLast hk) = false) (w : Str) :
    trim (k ++ w) = k ++ trimRight w := by
  rcases k with _ | ⟨c, t⟩
  · exact absurd rfl hk
  · simp only [List.head_cons] at hhead
    rw [trim, List.cons_append, trimLeft_cons_nonws hhead, ← List.cons_append,
      trimRight_keeps hk hlast]

theorem trimLeft_pre (s : Str) : ∃ t, t ++ trimLeft s = s :=
  dropWhile_decomp isWsChar s

theorem trim_head_nonws {s r : Str} {c : Char} (h : trim s = c :: r) :
    isWsChar c = false := by
  rw [trim] at h
  rcases htr : trimRight_pre (trimLeft s) with ⟨t, ht⟩
  rw [h] at ht
  have : trimLeft s = c :: (r ++ t) := by
    rw [← ht]
    simp
  exact dropWhile_head_not this

theorem trim_last_nonws {s : Str} {c : Char}
    (h : (trim s).getLast? = some c) : isWsChar c = false := by
  rw [trim, trimRight, List.getLast?_reverse] at h
  rcases hd : (trimLeft s).reverse.dropWhile isWsChar with _ | ⟨d, r⟩
  · rw [hd] at h
    simp at h
  · rw [hd] at h
    simp only [List.head?_cons, Option.some.injEq] at h
    exact h ▸ dropWhile_head_not hd

theorem trim_trim (s : Str) : trim (trim s) = trim s := by
  rcases hts : trim s with _ | ⟨c, r⟩
  · rfl
  · have hne : trim s ≠ [] := by simp [hts]
    have hhead : isWsChar ((trim s).head hne) = false := by
      have := trim_head_nonws hts
      simpa [hts] using this
    have hlast : isWsChar ((trim s).getLast hne) = false :=
      trim_last_nonws (List.getLast?_eq_getLast _ hne)
    rw [← hts]
    exact trim_eq_self hne hhead hlast

theorem jsRound_eq_div (s : ℤ) (f : ℕ) (hf : 0 < f) :
    (200 * s + (f : ℤ)) / (2 * (f : ℤ)) = jsRound ((s : ℚ) / (f : ℚ) * 100) := by
  unfold jsRound
  have hf0 : (f : ℚ) ≠ 0 := Nat.cast_ne_zero.mpr hf.ne'
  have h1 : (s : ℚ) / (f : ℚ) * 100 + 1 / 2 =
      ((((200 * s + (f : ℤ)) : ℤ) : ℚ)) / (((2 * f : ℕ) : ℚ)) := by
    push_cast
    field_simp
    ring
  rw [h1, Rat.floor_intCast_div_natCast]
  have h2 : ((2 * f : ℕ) : ℤ) = 2 * (f : ℤ) := by push_cast; ring
  rw [h2]

-- ------------------------------------------------------------------
-- buildStone structure
-- ------------------------------------------------------------------

theorem startsW_cons_decomp {c : Char} {w s : Str}
    (h : startsW (c :: w) s = true) : ∃ t, s = c :: t := by
  cases s with
  | nil => simp [startsW] at h
  | cons d t =>
    simp only [startsW, Bool.and_eq_true, decide_eq_true_eq] at h
    exact ⟨t, by rw [h.1]⟩

theorem buildStone_startsW (o : StoneOpts) (ts : Str) :
    startsW qastoneOpen (buildStone o ts) = true := by
  unfold buildStone stoneHeaderStr
  rw [show qastoneOpen = "§QASTONE§".data from rfl]
  simp only [List.append_assoc, List.cons_append, List.nil_append]
  exact startsW_self_append _ _

theorem qastoneClose_snoc : qastoneClose = "§/QASTONE".data ++ ['§'] := by decide

theorem snoc_extend {z : Str} {c : Char} (x : Str) (h : ∃ f, z = f ++ [c]) :
    ∃ f, x ++ z = f ++ [c] := by
  rcases h with ⟨f, rfl⟩
  exact ⟨x ++ f, by rw [List.append_assoc]⟩

theorem buildStone_close_decomp (o : StoneOpts) (ts : Str) :
    ∃ front, buildStone o ts = front ++ ['§'] := by
  unfold buildStone
  apply snoc_extend
  refine ⟨'\n' :: "§/QASTONE".data, ?_⟩
  rw [qastoneClose_snoc]
  rfl

theorem buildStone_trim (o : StoneOpts) (ts : Str) :
    trim (buildStone o ts) = buildStone o ts := by
  rcases startsW_cons_decomp
    (show startsW ('§' :: "QASTONE§".data) (buildStone o ts) = true from
      buildStone_startsW o ts) with ⟨t, h1⟩
  rcases buildStone_close_decomp o ts with ⟨front, h2⟩
  have hL : trimLeft (buildStone o ts) = buildStone o ts := by
    rw [h1]
    exact trimLeft_cons_nonws (by decide) _
  have hR : trimRight (buildStone o ts) = buildStone o ts := by
    rw [h2]
    exact trimRight_append_nonws (by decide) front
  rw [trim, hL, hR]

theorem buildStone_isQAStone (o : StoneOpts) (ts : Str) :
    isQAStone (buildStone o ts) = true := by
  rcases startsW_cons_decomp
    (show startsW ('§' :: "QASTONE§".data) (buildStone o ts) = true from
      buildStone_startsW o ts) with ⟨t, h1⟩
  have hne : buildStone o ts ≠ [] := by
    rw [h1]
    simp
  unfold isQAStone
  rw [if_neg hne, buildStone_trim]
  exact buildStone_startsW o ts

theorem rulesDefaultLod_bounds (c : Str) (hc : c ∉ objectProtoKeys) :
    ∃ n : Int, rulesDefaultLod (rulesLookup c) = .num n ∧ 0 ≤ n ∧ n ≤ 2 := by
  unfold rulesLookup
  rcases h : channelRules c with _ | r
  · rw [if_neg hc]
    exact ⟨1, rfl, by omega, by omega⟩
  · unfold channelRules at h
    split_ifs at h <;> · injection h with h1
                         subst h1
                         first
                           | exact ⟨0, rfl, by omega, by omega⟩
                           | exact ⟨1, rfl, by omega, by omega⟩
                           | exact ⟨2, rfl, by omega, by omega⟩

-- ------------------------------------------------------------------
-- Claim theorems
-- ------------------------------------------------------------------

/-- C4: `parseHeader(content)` fails with the `FormatError`
("Not a valid QA.Stone format") exactly when `isQAStone(content)` is
false, and returns a header object (never throws) whenever
`isQAStone(content)` is true. -/
theorem C4_parseHeader_error_iff (content : Str) :
    (parseHeader content = Except.error FormatError.notAValidQAStoneFormat ↔
      isQAStone content = false) ∧
    (parseHeader content = Except.ok (parseHeaderCore content) ↔
      isQAStone content = true) := by
  unfold parseHeader
  rcases h : isQAStone content <;> simp [h]

/-- C5 (counterexample): with `glow_channel: "toString"` the channel-rules
lookup returns the inherited truthy `Object.prototype.toString`, so
`rules.defaultLod` is `undefined`; with `needsFullContext` disabled the
returned level is `undefined`, enabled it is `NaN` (`Math.max(undefined,
2)`), and the JS comparison `enabled >= disabled` is false — refuting the
claimed "greater than or equal". -/
theorem C5_monotone_counterexample :
    (assessRequiredLOD { glow_channel := some "toString".data }
      { needsFullContext := false }).level = JsNum.jsUndefined ∧
    (assessRequiredLOD { glow_channel := some "toString".data }
      { needsFullContext := true }).level = JsNum.nan ∧
    jsGe (assessRequiredLOD { glow_channel := some "toString".data }
        { needsFullContext := true }).level
      (assessRequiredLOD { glow_channel := some "toString".data }
        { needsFullContext := false }).level = false := by
  refine ⟨by decide, by decide, by decide⟩

/-- C5 (amended): whenever the effective channel is not an inherited
`Object.prototype` member name — so the lookup yields an actual rules
record, either an own channel or the `||` default — then for a fixed
header and all other task-context fields fixed, the level with
`needsFullContext` enabled is `>=` (in the JS sense) the level with it
disabled. -/
theorem C5_assess_monotone_amended (h : Header) (tc : TaskContext)
    (hch : jsOr h.glow_channel "context".data ∉ objectProtoKeys) :
    jsGe (assessRequiredLOD h { tc with needsFullContext := true }).level
      (assessRequiredLOD h { tc with needsFullContext := false }).level = true := by
  obtain ⟨n, hn, hn0, hn2⟩ :=
    rulesDefaultLod_bounds (jsOr h.glow_channel "context".data) hch
  unfold assessRequiredLOD
  dsimp only
  rw [hn]
  simp only [Bool.false_eq_true, if_false, if_true, ite_true, ite_false,
    eq_self_iff_true]
  split_ifs <;> · simp only [jsGe, jsMin, jsMax, decide_eq_true_eq]
                  omega

/-- Witness for C5 (amended) at a concrete header. -/
theorem C5_assess_monotone_amended_witness :
    jsOr (Header.glow_channel { glow_channel := some "task".data })
      "context".data ∉ objectProtoKeys ∧
    jsGe (assessRequiredLOD ({ glow_channel := some "task".data } : Header)
        { ({} : TaskContext) with needsFullContext := true }).level
      (assessRequiredLOD ({ glow_channel := some "task".data } : Header)
        { ({} : TaskContext) with needsFullContext := false }).level = true :=
  ⟨by decide,
   C5_assess_monotone_amended { glow_channel := some "task".data } {} (by decide)⟩

/-- C9 (counterexample): for `glow_channel: "toString"` the returned level
is `undefined` (and `NaN` once `needsFullContext` forces a `Math.max`),
not an integer between 0 and 2 — refuting the claimed bound for arbitrary
`glow_channel`. -/
theorem C9_level_counterexample :
    (assessRequiredLOD { glow_channel := some "toString".data } {}).level =
      JsNum.jsUndefined ∧
    (assessRequiredLOD { glow_channel := some "constructor".data }
      { needsFullContext := true }).level = JsNum.nan := by
  refine ⟨by decide, by decide⟩

/-- C9 (amended): for every header whose effective channel is not an
inherited `Object.prototype` member name, and every task context, the
level returned by `assessRequiredLOD` is an integer between 0 and 2
inclusive; level 3 is never selected (it is only delegated via
`spawnHelper`). -/
theorem C9_assess_level_bounds_amended (h : Header) (tc : TaskContext)
    (hch : jsOr h.glow_channel "context".data ∉ objectProtoKeys) :
    ∃ n : Int, (assessRequiredLOD h tc).level = JsNum.num n ∧
      0 ≤ n ∧ n ≤ 2 := by
  obtain ⟨n, hn, hn0, hn2⟩ :=
    rulesDefaultLod_bounds (jsOr h.glow_channel "context".data) hch
  unfold assessRequiredLOD
  dsimp only
  rw [hn]
  split_ifs <;> exact ⟨_, rfl, by omega, by omega⟩

/-- Witness for C9 (amended) at a concrete header. -/
theorem C9_assess_level_bounds_amended_witness :
    jsOr (Header.glow_channel { glow_channel := some "task".data })
      "context".data ∉ objectProtoKeys ∧
    ∃ n : Int,
      (assessRequiredLOD ({ glow_channel := some "task".data } : Header)
        {}).level = JsNum.num n ∧ 0 ≤ n ∧ n ≤ 2 :=
  ⟨by decide,
   C9_assess_level_bounds_amended { glow_channel := some "task".data } {}
     (by decide)⟩

/-- C6: `isQAStone` returns true exactly when the trimmed input starts
with the open marker `§QASTONE§`; it is true on every `buildStone` output
and false on the empty string (the model's stand-in for the falsy inputs
on which the JS guard returns false without throwing). -/
theorem C6_isStone_detection :
    (∀ c : Str, isQAStone c = startsW qastoneOpen (trim c)) ∧
    (∀ (o : StoneOpts) (ts : Str), isQAStone (buildStone o ts) = true) ∧
    isQAStone [] = false := by
  refine ⟨fun c => ?_, buildStone_isQAStone, by decide⟩
  unfold isQAStone
  rcases hc : c with _ | ⟨d, r⟩
  · decide
  · rw [if_neg (by simp)]

/-- C1 (counterexample): for `content = " a"` the heuristic LOD-2 block is
emitted verbatim, but `extractLOD` trims the text after the `LOD-2:`
marker, so the round trip drops the leading space and returns `"a"`. -/
theorem C1_roundtrip_counterexample :
    extractLOD (buildStone { content := " a".data }
        "2026-10-12T00:00:00.000Z".data) 2 = "a".data ∧
    extractLOD (buildStone { content := " a".data }
        "2026-10-12T00:00:00.000Z".data) 2 ≠ " a".data := by
  constructor
  · decide
  · decide

/-- C2: two different stones that agree on their first 50 characters
collide in the LOD cache: after extracting LOD-0 of stone `a`, extracting
LOD-0 of stone `b` returns `a`'s cached text (`"AAA"`), which differs from
the fresh computation after `clearCache` (`"BBB"`). -/
theorem C2_cache_staleness :
    (let a := ("§QASTONE§\nborder_hash: 00000000\nglow_channel: task\n" ++
        "─\nLOD-0: AAA\n─\n§/QASTONE§").data
     let b := ("§QASTONE§\nborder_hash: 00000000\nglow_channel: task\n" ++
        "─\nLOD-0: BBB\n─\n§/QASTONE§").data
     let st1 := (extractLODSt {} a 0).2
     a ≠ b ∧ a.take 50 = b.take 50 ∧
     (extractLODSt st1 b 0).1 = (extractLODSt {} a 0).1 ∧
     (extractLODSt st1 b 0).1 ≠
       (extractLODSt (clearCache (extractLODSt st1 b 0).2) b 0).1) := by
  refine ⟨by decide, by decide, by decide, by decide⟩

/-- C3 (counterexample): on the stone below, `loadedTokens` includes the
header estimate while `fullTokens` does not, so `fullTokens (= 1)` is
strictly smaller than `loadedTokens (= 4)` and `saved` is negative —
refuting `fullTokens >= loadedTokens`. -/
theorem C3_token_counterexample :
    (let st := "§QASTONE§\nglow_channel: task\n─\nLOD-0: hi\n─\n§/QASTONE§".data
     isQAStone st = true ∧
     (getTokenSavings st 0).fullTokens = 1 ∧
     (getTokenSavings st 0).loadedTokens = some 4 ∧
     (getTokenSavings st 0).headerTokens = 3 ∧
     (getTokenSavings st 0).saved = -3 ∧
     (getTokenSavings st 0).percentage = -300) := by
  refine ⟨by decide, by decide, by decide, by decide, by decide, by decide⟩

set_option maxRecDepth 8000 in
/-- C7: the concrete scenario — building a stone from
`"Create GitHub repo for ztgi-ui, shared UI library."` on the `task`
channel yields an 8-character lowercase-hex `border_hash`, a parsed
fortune `task:repo:simple`, and `assessRequiredLOD(header, {})` level 0. -/
theorem C7_concrete_scenario :
    (let stone := buildStone
        { content := "Create GitHub repo for ztgi-ui, shared UI library.".data,
          glow_channel := "task".data }
        "2026-10-12T00:00:00.000Z".data
     ((parseHeaderCore stone).border_hash.map List.length) = some 8 ∧
     ((parseHeaderCore stone).border_hash.map (List.all · isHexLowerChar)) =
       some true ∧
     parseFortune (parseHeaderCore stone).fortune =
       ⟨some "task".data, some "repo".data, some "simple".data⟩ ∧
     (assessRequiredLOD (parseHeaderCore stone) {}).level = JsNum.num 0) := by
  refine ⟨by decide, by decide, by decide, by decide⟩

/-- C8: on input that is not a stone, `getTokenSavings` returns the object
literal `{saved: 0, percentage: 0, headerTokens: 0, fullTokens: 0}` — the
`loadedTokens` property is absent (modelled as `none`), contradicting the
declared five-field all-zero shape. -/
theorem C8_nonstone_missing_loadedTokens :
    getTokenSavings "plain text, not a stone".data 0 =
      { saved := 0, percentage := 0, headerTokens := 0,
        loadedTokens := none, fullTokens := 0 } := by
  decide

/-- C10 (counterexample): a `glow_channel` containing newlines can inject
forged `fortune` and `lod_count` header lines; the parsed header then has
`lod_count = 9` and a `complex` fortune, and `assessRequiredLOD` on the
parsed header of this `buildStone` output (no `lods` supplied) returns
`spawnHelper = true`. -/
theorem C10_spawnHelper_counterexample :
    (let stone := buildStone
        { content := "hi".data,
          glow_channel :=
            "task\nfortune: task:general:complex\nlod_count: 9\n─".data }
        "2026-10-12T00:00:00.000Z".data
     (parseHeaderCore stone).lod_count = 9 ∧
     (assessRequiredLOD (parseHeaderCore stone) {}).spawnHelper = true) := by
  refine ⟨by decide, by decide⟩

-- ------------------------------------------------------------------
-- splitLines decomposition of a built stone
-- ------------------------------------------------------------------

theorem joinChar_cons_pre (sep : Char) (pre p : Str) (ps : List Str) :
    joinChar sep ((pre ++ p) :: ps) = pre ++ joinChar sep (p :: ps) := by
  cases ps with
  | nil => rfl
  | cons q qs =>
    show (pre ++ p) ++ sep :: joinChar sep (q :: qs) =
      pre ++ (p ++ sep :: joinChar sep (q :: qs))
    rw [List.append_assoc]

theorem splitLines_ne_nil (s : Str) : splitLines s ≠ [] :=
  splitChar_ne_nil '\n' s

theorem join_append_close {A : List Str} (hA : A ≠ []) :
    joinChar '\n' A ++ '\n' :: qastoneClose = joinChar '\n' (A ++ [qastoneClose]) := by
  rw [joinChar_append '\n' A [qastoneClose] hA (by simp)]
  rfl

theorem join_append_blockStr {A : List Str} (hA : A ≠ []) (n : Nat) (text : Str) :
    joinChar '\n' A ++ lodBlockStr n text = joinChar '\n' (A ++ blockLines n text) := by
  by_cases h : text = []
  · simp [lodBlockStr, blockLines, h]
  · rcases hsp : splitLines text with _ | ⟨p, ps⟩
    · exact absurd hsp (splitLines_ne_nil text)
    · have hBL : blockLines n text =
          ("LOD-".data ++ natToDec n ++ ':' :: ' ' :: p) :: (ps ++ [sepLine]) := by
        rw [blockLines, if_neg h, hsp]
      have hjoin : joinChar '\n' (p :: ps) = text := by
        have := joinChar_splitChar '\n' text
        rwa [show splitChar '\n' text = splitLines text from rfl, hsp] at this
      rw [hBL, joinChar_append '\n' A _ hA (by simp)]
      congr 1
      rw [show ("LOD-".data ++ natToDec n ++ ':' :: ' ' :: p) :: (ps ++ [sepLine]) =
          (("LOD-".data ++ natToDec n ++ [':', ' ']) ++ p) :: (ps ++ [sepLine]) by
        simp]
      rw [joinChar_cons_pre]
      rw [show (p :: (ps ++ [sepLine])) = ((p :: ps) ++ [sepLine]) from rfl]
      rw [joinChar_append '\n' (p :: ps) [sepLine] (by simp) (by simp), hjoin]
      rw [lodBlockStr, if_neg h, show joinChar '\n' [sepLine] = sepLine from rfl]
      simp

theorem stoneHeaderStr_eq_join (bh gc st cr sa : Str) (lc : Nat) (ft : Str) :
    stoneHeaderStr bh gc st cr sa lc ft =
      joinChar '\n' (stoneHeaderLines bh gc st cr sa lc ft) := by
  show stoneHeaderStr bh gc st cr sa lc ft =
    "§QASTONE§".data ++ '\n' ::
    ("border_hash: ".data ++ bh ++ '\n' ::
    ("glow_channel: ".data ++ gc ++ '\n' ::
    ("stone_type: ".data ++ st ++ '\n' ::
    ("created: ".data ++ cr ++ '\n' ::
    ("source_agent: ".data ++ sa ++ '\n' ::
    ("lod_count: ".data ++ natToDec lc ++ '\n' ::
    ("fortune: ".data ++ ft ++ '\n' :: sepLine)))))))
  unfold stoneHeaderStr
  simp [List.append_assoc]

theorem digitsFuel_lt (base : Nat) (hb : 0 < base) (fuel n : Nat) :
    ∀ d ∈ digitsFuel base fuel n, d < base := by
  induction fuel generalizing n with
  | zero => simp [digitsFuel]
  | succ f ih =>
    cases n with
    | zero => simp [digitsFuel]
    | succ m =>
      intro d hd
      rw [show digitsFuel base (f + 1) (m + 1) =
          (m + 1) % base :: digitsFuel base f ((m + 1) / base) from rfl] at hd
      rcases List.mem_cons.mp hd with rfl | hd2
      · exact Nat.mod_lt _ hb
      · exact ih _ d hd2

theorem natToDec_digits (n : Nat) : ∀ c ∈ natToDec n, isDigitChar c = true := by
  have key : ∀ d, d < 10 → isDigitChar (Char.ofNat (48 + d)) = true := by decide
  unfold natToDec
  split
  · intro c hc
    rcases List.mem_singleton.mp hc with rfl
    decide
  · intro c hc
    rcases List.mem_reverse.mp hc with hc2
    rcases List.mem_map.mp hc2 with ⟨d, hd, rfl⟩
    exact key d (digitsFuel_lt 10 (by decide) n n d hd)

theorem digit_not_nl {c : Char} (h : isDigitChar c = true) : ¬c = '\n' := by
  intro hc
  subst hc
  exact absurd h (by decide)

theorem natToDec_no_nl (n : Nat) : '\n' ∉ natToDec n := by
  intro hmem
  exact digit_not_nl (natToDec_digits n '\n' hmem) rfl

theorem natToHex_hex (n : Nat) : ∀ c ∈ natToHex n, isHexLowerChar c = true := by
  have key : ∀ d, d < 16 →
      isHexLowerChar (if d < 10 then Char.ofNat (48 + d) else Char.ofNat (87 + d)) = true := by
    decide
  unfold natToHex
  split
  · intro c hc
    rcases List.mem_singleton.mp hc with rfl
    decide
  · intro c hc
    rcases List.mem_reverse.mp hc with hc2
    rcases List.mem_map.mp hc2 with ⟨d, hd, rfl⟩
    exact key d (digitsFuel_lt 16 (by decide) n n d hd)

theorem hex_not_nl {c : Char} (h : isHexLowerChar c = true) : ¬c = '\n' := by
  intro hc
  subst hc
  exact absurd h (by decide)

theorem generateHash_hex (content : Str) :
    ∀ c ∈ generateHash content, isHexLowerChar c = true := by
  unfold generateHash
  intro c hc
  have hc2 := List.mem_of_mem_take hc
  rcases List.mem_append.mp hc2 with h | h
  · rcases List.eq_of_mem_replicate h with rfl
    decide
  · exact natToHex_hex _ c h

theorem generateHash_no_nl (content : Str) : '\n' ∉ generateHash content := by
  intro hmem
  exact hex_not_nl (generateHash_hex content '\n' hmem) rfl

theorem calculateFortune_no_nl {content gc : Str} (hgc : '\n' ∉ gc) :
    '\n' ∉ calculateFortune content gc := by
  unfold calculateFortune
  intro hmem
  dsimp only at hmem
  rcases List.mem_append.mp hmem with h | h
  · rcases List.mem_append.mp h with h1 | h1
    · exact hgc h1
    · rcases List.mem_cons.mp h1 with h2 | h2
      · exact absurd h2 (by decide)
      · revert h2
        split_ifs <;> (intro h3; exact absurd h3 (by decide))
  · rcases List.mem_cons.mp h with h2 | h2
    · exact absurd h2 (by decide)
    · revert h2
      split_ifs <;> (intro h3; exact absurd h3 (by decide))

theorem stoneHeaderLines_no_nl {bh gc st cr sa ft : Str} (lc : Nat)
    (hbh : '\n' ∉ bh) (hgc : '\n' ∉ gc) (hst : '\n' ∉ st) (hcr : '\n' ∉ cr)
    (hsa : '\n' ∉ sa) (hft : '\n' ∉ ft) :
    ∀ p ∈ stoneHeaderLines bh gc st cr sa lc ft, '\n' ∉ p := by
  intro p hp
  unfold stoneHeaderLines at hp
  simp only [List.mem_cons, List.mem_singleton] at hp
  rcases hp with rfl | rfl | rfl | rfl | rfl | rfl | rfl | rfl | rfl | h
  · decide
  · intro hmem
    rcases List.mem_append.mp hmem with h | h
    · exact absurd h (by decide)
    · exact hbh h
  · intro hmem
    rcases List.mem_append.mp hmem with h | h
    · exact absurd h (by decide)
    · exact hgc h
  · intro hmem
    rcases List.mem_append.mp hmem with h | h
    · exact absurd h (by decide)
    · exact hst h
  · intro hmem
    rcases List.mem_append.mp hmem with h | h
    · exact absurd h (by decide)
    · exact hcr h
  · intro hmem
    rcases List.mem_append.mp hmem with h | h
    · exact absurd h (by decide)
    · exact hsa h
  · intro hmem
    rcases List.mem_append.mp hmem with h | h
    · exact absurd h (by decide)
    · exact natToDec_no_nl lc h
  · intro hmem
    rcases List.mem_append.mp hmem with h | h
    · exact absurd h (by decide)
    · exact hft h
  · decide
  · exact absurd h (by simp)

theorem blockLines_no_nl (n : Nat) (text : Str) :
    ∀ p ∈ blockLines n text, '\n' ∉ p := by
  intro p hp
  unfold blockLines at hp
  split at hp
  · simp at hp
  · rcases hsp : splitLines text with _ | ⟨q, qs⟩
    · exact absurd hsp (splitLines_ne_nil text)
    · rw [hsp] at hp
      rcases List.mem_cons.mp hp with rfl | hp2
      · intro hmem
        rcases List.mem_append.mp hmem with h | h
        · rcases List.mem_append.mp h with h2 | h2
          · exact absurd h2 (by decide)
          · exact natToDec_no_nl n h2
        · rcases List.mem_cons.mp h with h3 | h3
          · exact absurd h3 (by decide)
          · rcases List.mem_cons.mp h3 with h4 | h4
            · exact absurd h4 (by decide)
            · exact splitChar_sep_not_mem
                (hsp ▸ List.mem_cons_self q qs) h4
      · rcases List.mem_append.mp hp2 with h | h
        · intro hmem
          exact splitChar_sep_not_mem
            (hsp ▸ List.mem_cons_of_mem q h) hmem
        · rcases List.mem_singleton.mp h with rfl
          decide

theorem splitLines_buildStone (o : StoneOpts) (ts : Str)
    (hgc : '\n' ∉ o.glow_channel) (hst : '\n' ∉ o.stone_type)
    (hsa : '\n' ∉ o.source_agent) (hts : '\n' ∉ ts) (hlods : o.lods = none) :
    splitLines (buildStone o ts) =
      stoneHeaderLines (generateHash o.content) o.glow_channel o.stone_type ts
        o.source_agent (lodCountOf (generateLODs o.content))
        (calculateFortune o.content o.glow_channel) ++
      blockLines 0 (generateLODs o.content).l0 ++
      blockLines 1 (generateLODs o.content).l1 ++
      blockLines 2 (generateLODs o.content).l2 ++
      blockLines 3 (generateLODs o.content).l3 ++
      [qastoneClose] := by
  have hstone : buildStone o ts =
      joinChar '\n'
        (stoneHeaderLines (generateHash o.content) o.glow_channel o.stone_type ts
          o.source_agent (lodCountOf (generateLODs o.content))
          (calculateFortune o.content o.glow_channel) ++
        blockLines 0 (generateLODs o.content).l0 ++
        blockLines 1 (generateLODs o.content).l1 ++
        blockLines 2 (generateLODs o.content).l2 ++
        blockLines 3 (generateLODs o.content).l3 ++
        [qastoneClose]) := by
    unfold buildStone
    rw [hlods]
    dsimp only
    rw [Option.getD_none, stoneHeaderStr_eq_join]
    rw [join_append_blockStr (by simp [stoneHeaderLines]) 0 _]
    rw [join_append_blockStr (by simp [stoneHeaderLines]) 1 _]
    rw [join_append_blockStr (by simp [stoneHeaderLines]) 2 _]
    rw [join_append_blockStr (by simp [stoneHeaderLines]) 3 _]
    rw [join_append_close (by simp [stoneHeaderLines])]
  rw [hstone]
  unfold splitLines
  apply splitChar_join
  · simp [stoneHeaderLines]
  · intro p hp
    rcases List.mem_append.mp hp with h | h
    · rcases List.mem_append.mp h with h | h
      · rcases List.mem_append.mp h with h | h
        · rcases List.mem_append.mp h with h | h
          · rcases List.mem_append.mp h with h | h
            · exact stoneHeaderLines_no_nl _ (generateHash_no_nl o.content)
                hgc hst hts hsa (calculateFortune_no_nl hgc) p h
            · exact blockLines_no_nl 0 _ p h
          · exact blockLines_no_nl 1 _ p h
        · exact blockLines_no_nl 2 _ p h
      · exact blockLines_no_nl 3 _ p h
    · rcases List.mem_singleton.mp h with rfl
      decide

-- ------------------------------------------------------------------
-- Symbolic evaluation of parseHeader on a built stone
-- ------------------------------------------------------------------

theorem idxOfChar_append {c : Char} {k : Str} (hk : c ∉ k) (r : Str) :
    idxOfChar c (k ++ c :: r) = some k.length := by
  induction k with
  | nil => simp [idxOfChar]
  | cons d t ih =>
    have hd : ¬(d = c) := fun hdc => hk (hdc ▸ List.mem_cons_self d t)
    have ht : c ∉ t := fun htc => hk (List.mem_cons_of_mem d htc)
    rw [List.cons_append, idxOfChar, if_neg hd, ih ht]
    rfl

theorem head_append_left {k : Str} (hk : k ≠ []) (r : Str) :
    (k ++ r).head (by simp [hk]) = k.head hk := by
  cases k with
  | nil => exact absurd rfl hk
  | cons c t => rfl

theorem trim_colon_line (k w : Str) (hk : k ≠ [])
    (hhead : isWsChar (k.head hk) = false) :
    trim (k ++ ':' :: w) = k ++ ':' :: trimRight w := by
  have hk' : k ++ [':'] ≠ [] := by simp
  have hh : isWsChar ((k ++ [':']).head hk') = false := by
    rw [head_append_left hk]
    exact hhead
  have hl : isWsChar ((k ++ [':']).getLast hk') = false := by
    have h1 : (k ++ [':']).getLast? = some ':' := by simp
    have h2 := List.getLast?_eq_getLast (k ++ [':']) hk'
    rw [h1] at h2
    have h3 : (k ++ [':']).getLast hk' = ':' := (Option.some.injEq _ _ ▸ h2).symm
    rw [h3]
    decide
  have := trim_keyline hk' hh hl w
  rw [List.append_assoc] at this
  simpa using this

theorem phLoop_keyline (k w : Str) (ls : List Str) (i : Nat) (h : Header)
    (hi : i < 15) (hk : k ≠ []) (hhead : isWsChar (k.head hk) = false)
    (hcol : ':' ∉ k) (htk : trim k = k) (hk2 : 2 ≤ k.length) :
    phLoop ((k ++ ':' :: w) :: ls) i h =
      phLoop ls (i + 1) (processSwitch k (trim (trimRight w)) h) := by
  have ht : trim (k ++ ':' :: w) = k ++ ':' :: trimRight w :=
    trim_colon_line k w hk hhead
  have hsep : ¬(trim (k ++ ':' :: w) = sepLine) := by
    rw [ht]
    intro hcon
    have := congrArg List.length hcon
    simp [sepLine] at this
    omega
  rw [phLoop, if_pos hi, if_neg hsep]
  congr 1
  rw [ht, processLine]
  have hidx : idxOfChar ':' (k ++ ':' :: trimRight w) = some k.length :=
    idxOfChar_append hcol _
  rw [hidx]
  have hpos : k.length > 0 := by
    cases k with
    | nil => exact absurd rfl hk
    | cons c t => simp
  dsimp only
  rw [if_pos hpos]
  have htake : (k ++ ':' :: trimRight w).take k.length = k := List.take_left k _
  have hdrop : (k ++ ':' :: trimRight w).drop (k.length + 1) = trimRight w := by
    rw [show k ++ ':' :: trimRight w = (k ++ [':']) ++ trimRight w by simp,
      show k.length + 1 = (k ++ [':']).length by simp]
    exact List.drop_left _ _
  rw [htake, hdrop, htk]

theorem phLoop_no_colon_line (l : Str) (ls : List Str) (i : Nat) (h : Header)
    (hi : i < 15) (hsep : ¬(trim l = sepLine))
    (hcol : idxOfChar ':' (trim l) = none) :
    phLoop (l :: ls) i h = phLoop ls (i + 1) h := by
  rw [phLoop, if_pos hi, if_neg hsep]
  congr 1
  rw [processLine, hcol]

theorem phLoop_sep (ls : List Str) (i : Nat) (h : Header) (hi : i < 15) :
    phLoop (sepLine :: ls) i h = (h, some i) := by
  rw [phLoop, if_pos hi, if_pos (by decide)]

theorem processSwitch_lod_count (k v : Str) (h : Header) :
    (processSwitch k v h).lod_count =
      if k = "lod_count".data then parseIntOr0 v else h.lod_count := by
  unfold processSwitch
  split_ifs <;> simp_all

theorem generateLODs_l3_eq (content : Str) : (generateLODs content).l3 = [] := rfl

theorem generateLODs_l0_ne {content : Str} (hc : content ≠ []) :
    (generateLODs content).l0 ≠ [] := by
  unfold generateLODs
  dsimp only
  rcases hs : (splitRuns isPunctChar content).filter (fun s => trim s ≠ []) with
    _ | ⟨s0, ss⟩
  · simp [List.take_eq_nil_iff, hc]
  · have hs0 : s0 ≠ [] := by
      have hmem : s0 ∈ (splitRuns isPunctChar content).filter
          (fun s => trim s ≠ []) := by
        rw [hs]
        exact List.mem_cons_self _ _
      have := List.of_mem_filter hmem
      intro hcon
      rw [hcon] at this
      simp [trim_nil] at this
    split_ifs <;> simp [List.take_eq_nil_iff, hs0]

theorem generateLODs_l1_ne {content : Str} (hc : content ≠ []) :
    (generateLODs content).l1 ≠ [] := by
  unfold generateLODs
  dsimp only
  rcases hs : (splitParas content).filter (fun p => trim p ≠ []) with _ | ⟨p0, ps⟩
  · simp [List.take_eq_nil_iff, hc]
  · have hp0 : p0 ≠ [] := by
      have hmem : p0 ∈ (splitParas content).filter (fun p => trim p ≠ []) := by
        rw [hs]
        exact List.mem_cons_self _ _
      have := List.of_mem_filter hmem
      intro hcon
      rw [hcon] at this
      simp [trim_nil] at this
    split_ifs <;> simp [List.take_eq_nil_iff, hp0]

theorem lodCountOf_generateLODs (content : Str) :
    lodCountOf (generateLODs content) = if content = [] then 0 else 3 := by
  by_cases hcon : content = []
  · subst hcon
    decide
  · rw [if_neg hcon]
    have h0 := generateLODs_l0_ne hcon
    have h1 := generateLODs_l1_ne hcon
    have h2 : (generateLODs content).l2 ≠ [] := hcon
    have h3 : (generateLODs content).l3 = [] := rfl
    unfold lodCountOf
    simp [List.filter, h0, h1, h2, h3]

theorem parseHeaderCore_buildStone_lod_count (o : StoneOpts) (ts : Str)
    (hgc : '\n' ∉ o.glow_channel) (hst : '\n' ∉ o.stone_type)
    (hsa : '\n' ∉ o.source_agent) (hts : '\n' ∉ ts) (hlods : o.lods = none) :
    (parseHeaderCore (buildStone o ts)).lod_count =
      if o.content = [] then 0 else 3 := by
  have hsplit := splitLines_buildStone o ts hgc hst hsa hts hlods
  have hlines : splitLines (buildStone o ts) =
      "§QASTONE§".data ::
      ("border_hash".data ++ ':' :: ' ' :: generateHash o.content) ::
      ("glow_channel".data ++ ':' :: ' ' :: o.glow_channel) ::
      ("stone_type".data ++ ':' :: ' ' :: o.stone_type) ::
      ("created".data ++ ':' :: ' ' :: ts) ::
      ("source_agent".data ++ ':' :: ' ' :: o.source_agent) ::
      ("lod_count".data ++ ':' :: ' ' ::
        natToDec (lodCountOf (generateLODs o.content))) ::
      ("fortune".data ++ ':' :: ' ' ::
        calculateFortune o.content o.glow_channel) ::
      sepLine ::
      (blockLines 0 (generateLODs o.content).l0 ++
       (blockLines 1 (generateLODs o.content).l1 ++
       (blockLines 2 (generateLODs o.content).l2 ++
       (blockLines 3 (generateLODs o.content).l3 ++ [qastoneClose])))) := by
    rw [hsplit]
    unfold stoneHeaderLines
    rw [show "border_hash: ".data = "border_hash".data ++ ':' :: [' '] from by decide,
      show "glow_channel: ".data = "glow_channel".data ++ ':' :: [' '] from by decide,
      show "stone_type: ".data = "stone_type".data ++ ':' :: [' '] from by decide,
      show "created: ".data = "created".data ++ ':' :: [' '] from by decide,
      show "source_agent: ".data = "source_agent".data ++ ':' :: [' '] from by decide,
      show "lod_count: ".data = "lod_count".data ++ ':' :: [' '] from by decide,
      show "fortune: ".data = "fortune".data ++ ':' :: [' '] from by decide]
    simp [List.append_assoc, List.cons_append]
  rcases hE : phLoop (splitLines (buildStone o ts)) 0 {} with ⟨h', brk'⟩
  have hEval : phLoop (splitLines (buildStone o ts)) 0 {} =
      (processSwitch "fortune".data
        (trim (trimRight (' ' :: calculateFortune o.content o.glow_channel)))
        (processSwitch "lod_count".data
          (trim (trimRight (' ' :: natToDec (lodCountOf (generateLODs o.content)))))
        (processSwitch "source_agent".data (trim (trimRight (' ' :: o.source_agent)))
        (processSwitch "created".data (trim (trimRight (' ' :: ts)))
        (processSwitch "stone_type".data (trim (trimRight (' ' :: o.stone_type)))
        (processSwitch "glow_channel".data (trim (trimRight (' ' :: o.glow_channel)))
        (processSwitch "border_hash".data
          (trim (trimRight (' ' :: generateHash o.content))) {})))))), some 8) := by
    rw [hlines]
    rw [phLoop_no_colon_line _ _ 0 _ (by decide) (by decide) (by decide)]
    rw [phLoop_keyline "border_hash".data _ _ 1 _ (by decide) (by decide)
      (by decide) (by decide) (by decide) (by decide)]
    rw [phLoop_keyline "glow_channel".data _ _ 2 _ (by decide) (by decide)
      (by decide) (by decide) (by decide) (by decide)]
    rw [phLoop_keyline "stone_type".data _ _ 3 _ (by decide) (by decide)
      (by decide) (by decide) (by decide) (by decide)]
    rw [phLoop_keyline "created".data _ _ 4 _ (by decide) (by decide)
      (by decide) (by decide) (by decide) (by decide)]
    rw [phLoop_keyline "source_agent".data _ _ 5 _ (by decide) (by decide)
      (by decide) (by decide) (by decide) (by decide)]
    rw [phLoop_keyline "lod_count".data _ _ 6 _ (by decide) (by decide)
      (by decide) (by decide) (by decide) (by decide)]
    rw [phLoop_keyline "fortune".data _ _ 7 _ (by decide) (by decide)
      (by decide) (by decide) (by decide) (by decide)]
    rw [phLoop_sep _ 8 _ (by decide)]
  rw [hE] at hEval
  have hh' := (Prod.mk.injEq .. ▸ hEval).1
  unfold parseHeaderCore
  dsimp only
  rw [hE]
  dsimp only
  rw [hh']
  rw [processSwitch_lod_count, if_neg (by decide), processSwitch_lod_count,
    if_pos rfl]
  rw [lodCountOf_generateLODs]
  by_cases hcon : o.content = []
  · rw [if_pos hcon, if_pos hcon]
    decide
  · rw [if_neg hcon, if_neg hcon]
    decide

theorem assess_spawnHelper_of_lt (h : Header) (tc : TaskContext)
    (hl : h.lod_count < 4) : (assessRequiredLOD h tc).spawnHelper = false := by
  unfold assessRequiredLOD
  dsimp only
  split_ifs <;> first
    | rfl
    | (simp [decide_eq_false_iff_not]; omega)

/-- C10 (amended): with no `lods` map supplied, the heuristic LOD-3 is the
empty string and the emitted `lod_count` is 3 for nonempty content and 0
for empty content (in particular at most 3); provided the metadata and
timestamp contain no newline, `assessRequiredLOD` on the parsed header of
such a stone never sets `spawnHelper`. -/
theorem C10_no_spawnHelper_amended (o : StoneOpts) (ts : Str) (tc : TaskContext)
    (hgc : '\n' ∉ o.glow_channel) (hst : '\n' ∉ o.stone_type)
    (hsa : '\n' ∉ o.source_agent) (hts : '\n' ∉ ts) (hlods : o.lods = none) :
    (generateLODs o.content).l3 = [] ∧
    (parseHeaderCore (buildStone o ts)).lod_count =
      (if o.content = [] then 0 else 3) ∧
    (parseHeaderCore (buildStone o ts)).lod_count ≤ 3 ∧
    (assessRequiredLOD (parseHeaderCore (buildStone o ts)) tc).spawnHelper = false := by
  have hmain := parseHeaderCore_buildStone_lod_count o ts hgc hst hsa hts hlods
  refine ⟨rfl, hmain, ?_, ?_⟩
  · rw [hmain]
    split_ifs <;> omega
  · apply assess_spawnHelper_of_lt
    rw [hmain]
    split_ifs <;> omega

/-- Witness for C10 (amended) at a concrete stone. -/
theorem C10_no_spawnHelper_amended_witness :
    ('\n' ∉ "task".data) ∧ ('\n' ∉ "clipboard".data) ∧ ('\n' ∉ "user".data) ∧
    ('\n' ∉ "2026-10-12T00:00:00.000Z".data) ∧
    (StoneOpts.lods { content := "hi".data, glow_channel := "task".data } = none) ∧
    ((generateLODs "hi".data).l3 = [] ∧
     (parseHeaderCore (buildStone
        { content := "hi".data, glow_channel := "task".data }
        "2026-10-12T00:00:00.000Z".data)).lod_count =
       (if "hi".data = ([] : Str) then 0 else 3) ∧
     (parseHeaderCore (buildStone
        { content := "hi".data, glow_channel := "task".data }
        "2026-10-12T00:00:00.000Z".data)).lod_count ≤ 3 ∧
     (assessRequiredLOD (parseHeaderCore (buildStone
        { content := "hi".data, glow_channel := "task".data }
        "2026-10-12T00:00:00.000Z".data)) {}).spawnHelper = false) :=
  ⟨by decide, by decide, by decide, by decide, rfl,
   C10_no_spawnHelper_amended
     { content := "hi".data, glow_channel := "task".data }
     "2026-10-12T00:00:00.000Z".data {}
     (by decide) (by decide) (by decide) (by decide) rfl⟩


-- ------------------------------------------------------------------
-- Pieces of splitRuns / splitParas are contiguous substrings
-- ------------------------------------------------------------------

theorem splitRunsAux_ne_nil (P : Char → Bool) (s : Str) :
    ∀ b, splitRunsAux P b s ≠ [] := by
  induction s with
  | nil => intro b; simp [splitRunsAux]
  | cons c rest ih =>
    intro b
    simp only [splitRunsAux]
    split
    · split
      · exact ih true
      · simp
    · split <;> simp

theorem splitRunsAux_head_pre (P : Char → Bool) (s : Str) :
    ∀ p ps, splitRunsAux P false s = p :: ps → ∃ b, s = p ++ b := by
  induction s with
  | nil =>
    intro p ps h
    simp only [splitRunsAux, List.cons.injEq] at h
    exact ⟨[], by simp [h.1.symm]⟩
  | cons c rest ih =>
    intro p ps h
    simp only [splitRunsAux] at h
    rcases hP : P c
    · rw [hP] at h
      simp only [Bool.false_eq_true, if_false] at h
      rcases h0 : splitRunsAux P false rest with _ | ⟨p0, ps0⟩
      · exact absurd h0 (splitRunsAux_ne_nil P rest false)
      · rw [h0] at h
        rcases List.cons.injEq .. ▸ h with ⟨rfl, -⟩
        rcases ih p0 ps0 h0 with ⟨b, rfl⟩
        exact ⟨b, rfl⟩
    · rw [hP] at h
      simp only [if_true] at h
      rcases List.cons.injEq .. ▸ h with ⟨rfl, -⟩
      exact ⟨c :: rest, rfl⟩

theorem splitRunsAux_piece_sub (P : Char → Bool) (s : Str) :
    ∀ (b : Bool) (p : Str), p ∈ splitRunsAux P b s → ∃ x y, s = x ++ p ++ y := by
  induction s with
  | nil =>
    intro b p h
    simp only [splitRunsAux, List.mem_singleton] at h
    exact ⟨[], [], by simp [h]⟩
  | cons c rest ih =>
    intro b p h
    simp only [splitRunsAux] at h
    rcases hP : P c
    · rw [hP] at h
      simp only [Bool.false_eq_true, if_false] at h
      rcases h0 : splitRunsAux P false rest with _ | ⟨p0, ps0⟩
      · exact absurd h0 (splitRunsAux_ne_nil P rest false)
      · rw [h0] at h
        rcases List.mem_cons.mp h with rfl | h2
        · rcases splitRunsAux_head_pre P rest p0 ps0 h0 with ⟨b', rfl⟩
          exact ⟨[], b', by simp⟩
        · rcases ih false p (h0 ▸ List.mem_cons_of_mem p0 h2) with ⟨x, y, rfl⟩
          exact ⟨c :: x, y, by simp⟩
    · rw [hP] at h
      simp only [if_true] at h
      rcases b
      · rcases List.mem_cons.mp h with rfl | h2
        · exact ⟨[], c :: rest, by simp⟩
        · rcases ih true p h2 with ⟨x, y, rfl⟩
          exact ⟨c :: x, y, by simp⟩
      · rcases ih true p h with ⟨x, y, rfl⟩
        exact ⟨c :: x, y, by simp⟩

theorem splitParasAux_cons_ne (b : Bool) {c : Char} (hc : ¬c = '\n') (rest : Str) :
    splitParasAux b (c :: rest) =
      match splitParasAux false rest with
      | [] => [[c]]
      | p :: ps => (c :: p) :: ps := by
  rw [splitParasAux.eq_def]
  split <;> simp_all

theorem splitParasAux_false_nl_nil :
    splitParasAux false ['\n'] = [['\n']] := rfl

theorem splitParasAux_false_nl_one {d : Char} (hd : ¬d = '\n') (r : Str) :
    splitParasAux false ('\n' :: d :: r) =
      match splitParasAux false (d :: r) with
      | [] => [['\n']]
      | p :: ps => ('\n' :: p) :: ps := by
  rw [splitParasAux.eq_def]
  split <;> try simp_all
  rename_i heq hx
  obtain ⟨h1, h2⟩ := heq
  subst h1
  subst h2
  rfl

theorem splitParasAux_ne_nil (s : Str) : ∀ b, splitParasAux b s ≠ [] := by
  induction s with
  | nil => intro b; simp [splitParasAux]
  | cons c rest ih =>
    intro b
    by_cases hc : c = '\n'
    · subst hc
      cases b
      · rcases rest with _ | ⟨d, r⟩
        · simp [splitParasAux_false_nl_nil]
        · by_cases hd : d = '\n'
          · subst hd
            rw [show splitParasAux false ('\n' :: '\n' :: r) =
              [] :: splitParasAux true r from rfl]
            simp
          · rw [splitParasAux_false_nl_one hd r]
            split <;> simp
      · rw [show splitParasAux true ('\n' :: rest) = splitParasAux true rest from rfl]
        exact ih true
    · rw [splitParasAux_cons_ne b hc rest]
      split <;> simp

theorem splitParasAux_head_pre (s : Str) :
    ∀ p ps, splitParasAux false s = p :: ps → ∃ b, s = p ++ b := by
  induction s with
  | nil =>
    intro p ps h
    simp only [splitParasAux, List.cons.injEq] at h
    exact ⟨[], by simp [h.1.symm]⟩
  | cons c rest ih =>
    intro p ps h
    by_cases hc : c = '\n'
    · subst hc
      rcases rest with _ | ⟨d, r⟩
      · rw [splitParasAux_false_nl_nil] at h
        rcases List.cons.injEq .. ▸ h with ⟨rfl, -⟩
        exact ⟨[], rfl⟩
      · by_cases hd : d = '\n'
        · subst hd
          rw [show splitParasAux false ('\n' :: '\n' :: r) =
            [] :: splitParasAux true r from rfl] at h
          rcases List.cons.injEq .. ▸ h with ⟨rfl, -⟩
          exact ⟨'\n' :: '\n' :: r, rfl⟩
        · rw [splitParasAux_false_nl_one hd r] at h
          rcases h0 : splitParasAux false (d :: r) with _ | ⟨p0, ps0⟩
          · exact absurd h0 (splitParasAux_ne_nil (d :: r) false)
          · rw [h0] at h
            rcases List.cons.injEq .. ▸ h with ⟨rfl, -⟩
            rcases ih p0 ps0 h0 with ⟨b, hb⟩
            exact ⟨b, by rw [List.cons_append, ← hb]⟩
    · rw [splitParasAux_cons_ne false hc rest] at h
      rcases h0 : splitParasAux false rest with _ | ⟨p0, ps0⟩
      · exact absurd h0 (splitParasAux_ne_nil rest false)
      · rw [h0] at h
        rcases List.cons.injEq .. ▸ h with ⟨rfl, -⟩
        rcases ih p0 ps0 h0 with ⟨b, hb⟩
        exact ⟨b, by rw [List.cons_append, ← hb]⟩

theorem splitParasAux_piece_sub_fuel :
    ∀ (n : Nat) (s : Str), s.length ≤ n → ∀ (b : Bool) (p : Str),
      p ∈ splitParasAux b s → ∃ x y, s = x ++ p ++ y := by
  intro n
  induction n with
  | zero =>
    intro s hs b p h
    have : s = [] := List.length_eq_zero.mp (Nat.le_zero.mp hs)
    subst this
    simp only [splitParasAux, List.mem_singleton] at h
    exact ⟨[], [], by simp [h]⟩
  | succ n ih =>
    intro s hs b p h
    rcases s with _ | ⟨c, rest⟩
    · simp only [splitParasAux, List.mem_singleton] at h
      exact ⟨[], [], by simp [h]⟩
    · by_cases hc : c = '\n'
      · subst hc
        cases b
        · rcases rest with _ | ⟨d, r⟩
          · rw [splitParasAux_false_nl_nil] at h
            rcases List.mem_singleton.mp h with rfl
            exact ⟨[], [], by simp⟩
          · by_cases hd : d = '\n'
            · subst hd
              rw [show splitParasAux false ('\n' :: '\n' :: r) =
                [] :: splitParasAux true r from rfl] at h
              rcases List.mem_cons.mp h with rfl | h2
              · exact ⟨[], '\n' :: '\n' :: r, by simp⟩
              · rcases ih r (by simp at hs ⊢; omega) true p h2 with ⟨x, y, hxy⟩
                exact ⟨'\n' :: '\n' :: x, y, by simp [hxy]⟩
            · rw [splitParasAux_false_nl_one hd r] at h
              rcases h0 : splitParasAux false (d :: r) with _ | ⟨p0, ps0⟩
              · exact absurd h0 (splitParasAux_ne_nil (d :: r) false)
              · rw [h0] at h
                rcases List.mem_cons.mp h with rfl | h2
                · rcases splitParasAux_head_pre (d :: r) p0 ps0 h0 with ⟨b', hb⟩
                  exact ⟨[], b', by simp [hb]⟩
                · rcases ih (d :: r) (by simp at hs ⊢; omega) false p
                    (h0 ▸ List.mem_cons_of_mem p0 h2) with ⟨x, y, hxy⟩
                  exact ⟨'\n' :: x, y, by simp [hxy]⟩
        · rw [show splitParasAux true ('\n' :: rest) =
            splitParasAux true rest from rfl] at h
          rcases ih rest (by simp at hs; omega) true p h with ⟨x, y, hxy⟩
          exact ⟨'\n' :: x, y, by simp [hxy]⟩
      · rw [splitParasAux_cons_ne b hc rest] at h
        rcases h0 : splitParasAux false rest with _ | ⟨p0, ps0⟩
        · exact absurd h0 (splitParasAux_ne_nil rest false)
        · rw [h0] at h
          rcases List.mem_cons.mp h with rfl | h2
          · rcases splitParasAux_head_pre rest p0 ps0 h0 with ⟨b', hb⟩
            exact ⟨[], b', by simp [hb]⟩
          · rcases ih rest (by simp at hs; omega) false p
              (h0 ▸ List.mem_cons_of_mem p0 h2) with ⟨x, y, hxy⟩
            exact ⟨c :: x, y, by simp [hxy]⟩

theorem splitParas_piece_sub {s p : Str} (h : p ∈ splitParas s) :
    ∃ x y, s = x ++ p ++ y :=
  splitParasAux_piece_sub_fuel s.length s (Nat.le_refl _) false p h

theorem splitRuns_piece_sub {P : Char → Bool} {s p : Str}
    (h : p ∈ splitRuns P s) : ∃ x y, s = x ++ p ++ y :=
  splitRunsAux_piece_sub P s false p h

theorem occurs_false_of_sub {w s t : Str} (x y : Str) (hs : s = x ++ t ++ y)
    (h : occurs w s = false) : occurs w t = false := by
  by_contra hcon
  rw [Bool.not_eq_false] at hcon
  rw [occurs_sub x y hs hcon] at h
  exact Bool.noConfusion h

theorem occurs_take_false {w s : Str} (n : Nat) (h : occurs w s = false) :
    occurs w (s.take n) = false := by
  by_contra hcon
  rw [Bool.not_eq_false] at hcon
  rw [occurs_take n hcon] at h
  exact Bool.noConfusion h

theorem generateLODs_l0_no_occ {content w : Str} (hw : w ≠ [])
    (hdot : '.' ∉ w) (hsp : ' ' ∉ w)
    (h : occurs w content = false) :
    occurs w (generateLODs content).l0 = false := by
  unfold generateLODs
  dsimp only
  rcases hs : (splitRuns isPunctChar content).filter (fun s => trim s ≠ []) with
    _ | ⟨s0, ss⟩
  · apply occurs_take_false
    split_ifs
    · simp_all
    · exact occurs_false_of_sub [] (content.drop 100)
        (by rw [List.nil_append, List.take_append_drop]) h
  · have hbase : occurs w s0 = false := by
      have hmem : s0 ∈ splitRuns isPunctChar content :=
        List.mem_of_mem_filter (hs ▸ List.mem_cons_self s0 ss)
      rcases splitRuns_piece_sub hmem with ⟨x, y, hxy⟩
      exact occurs_false_of_sub x y hxy h
    apply occurs_take_false
    split_ifs with hcond
    · have hlen : 1 < (s0 :: ss).length := by
        rcases Bool.and_eq_true .. ▸ hcond with ⟨h1, -⟩
        simpa using of_decide_eq_true h1
      have hs1 : occurs w (s0 :: ss)[1]! = false := by
        have hmem1 : (s0 :: ss)[1]! ∈ (s0 :: ss) := by
          rw [getElem!_pos (s0 :: ss) 1 hlen]
          exact List.getElem_mem _
        have hmem2 : (s0 :: ss)[1]! ∈ splitRuns isPunctChar content := by
          have hmem1f : (s0 :: ss)[1]! ∈
              (splitRuns isPunctChar content).filter (fun s => trim s ≠ []) := by
            rw [hs]
            exact hmem1
          exact List.mem_of_mem_filter hmem1f
        rcases splitRuns_piece_sub hmem2 with ⟨x, y, hxy⟩
        exact occurs_false_of_sub x y hxy h
      exact not_occurs_append3 s0 (". ".data) _ hw (by simp) hbase hs1
        (by intro c hc
            rcases List.mem_cons.mp hc with rfl | hc2
            · exact hdot
            · rcases List.mem_singleton.mp hc2 with rfl
              exact hsp)
    · exact hbase

theorem generateLODs_l1_no_occ {content w : Str} (hw : w ≠ [])
    (hnl : '\n' ∉ w)
    (h : occurs w content = false) :
    occurs w (generateLODs content).l1 = false := by
  unfold generateLODs
  dsimp only
  rcases hs : (splitParas content).filter (fun p => trim p ≠ []) with _ | ⟨p0, ps⟩
  · apply occurs_take_false
    split_ifs
    · simp_all
    · exact occurs_false_of_sub [] (content.drop 500)
        (by rw [List.nil_append, List.take_append_drop]) h
  · have hbase : occurs w p0 = false := by
      have hmem : p0 ∈ splitParas content :=
        List.mem_of_mem_filter (hs ▸ List.mem_cons_self p0 ps)
      rcases splitParas_piece_sub hmem with ⟨x, y, hxy⟩
      exact occurs_false_of_sub x y hxy h
    apply occurs_take_false
    split_ifs with hcond
    · have hlen : 1 < (p0 :: ps).length := by
        rcases Bool.and_eq_true .. ▸ hcond with ⟨-, h1⟩
        simpa using of_decide_eq_true h1
      have hp1 : occurs w (p0 :: ps)[1]! = false := by
        have hmem1 : (p0 :: ps)[1]! ∈ (p0 :: ps) := by
          rw [getElem!_pos (p0 :: ps) 1 hlen]
          exact List.getElem_mem _
        have hmem2 : (p0 :: ps)[1]! ∈ splitParas content := by
          have hmem1f : (p0 :: ps)[1]! ∈
              (splitParas content).filter (fun p => trim p ≠ []) := by
            rw [hs]
            exact hmem1
          exact List.mem_of_mem_filter hmem1f
        rcases splitParas_piece_sub hmem2 with ⟨x, y, hxy⟩
        exact occurs_false_of_sub x y hxy h
      exact not_occurs_append3 p0 ("\n\n".data) _ hw (by simp) hbase hp1
        (by intro c hc
            rcases List.mem_cons.mp hc with rfl | hc2
            · exact hnl
            · rcases List.mem_singleton.mp hc2 with rfl
              exact hnl)
    · exact hbase

theorem startsW_mono_false {w e l : Str} (h : startsW w l = false) :
    startsW (w ++ e) l = false := by
  by_contra hcon
  rw [Bool.not_eq_false] at hcon
  rw [startsW_mono hcon] at h
  exact Bool.noConfusion h

theorem lod_lines_no_startsW {w text : Str} (hocc : occurs w text = false) :
    ∀ l ∈ splitLines text, startsW w l = false := by
  intro l hl
  by_contra hcon
  rw [Bool.not_eq_false] at hcon
  rcases splitChar_piece_sub hl with ⟨x, y, hxy⟩
  rw [occurs_sub x y hxy (occurs_of_startsW hcon)] at hocc
  exact Bool.noConfusion hocc

theorem lodMarker2_eq : lodMarker 2 = "LOD-2:".data := by decide

theorem lodMarker2_split : lodMarker 2 = "LOD-".data ++ "2:".data := by decide

theorem marker2_not_block0 (p : Str) :
    startsW (lodMarker 2) ("LOD-".data ++ natToDec 0 ++ ':' :: ' ' :: p) = false := rfl

theorem marker2_not_block1 (p : Str) :
    startsW (lodMarker 2) ("LOD-".data ++ natToDec 1 ++ ':' :: ' ' :: p) = false := rfl

theorem blockLines_no_marker2 {text : Str} (n : Nat)
    (hfirst : ∀ p : Str,
      startsW (lodMarker 2) ("LOD-".data ++ natToDec n ++ ':' :: ' ' :: p) = false)
    (hocc : occurs "LOD-".data text = false) :
    ∀ l ∈ blockLines n text, startsW (lodMarker 2) l = false := by
  intro l hl
  unfold blockLines at hl
  split at hl
  · simp at hl
  · rcases hsp : splitLines text with _ | ⟨q, qs⟩
    · exact absurd hsp (splitLines_ne_nil text)
    · rw [hsp] at hl
      rcases List.mem_cons.mp hl with rfl | hl2
      · exact hfirst q
      · rcases List.mem_append.mp hl2 with h | h
        · rw [lodMarker2_split]
          exact startsW_mono_false
            (lod_lines_no_startsW hocc l (hsp ▸ List.mem_cons_of_mem q h))
        · rcases List.mem_singleton.mp h with rfl
          rw [lodMarker2_eq]
          decide

theorem lodScan_skip (marker : Str) (A r : List Str) (acc : Str)
    (hA : ∀ l ∈ A, startsW marker l = false) :
    lodScan marker (A ++ r) false acc = lodScan marker r false acc := by
  induction A with
  | nil => rfl
  | cons l A' ih =>
    rw [List.cons_append, lodScan, if_neg (by simp [hA l (List.mem_cons_self l A')])]
    exact ih fun x hx => hA x (List.mem_cons_of_mem l hx)

theorem joinChar_cons_nl (l : Str) (M : List Str) :
    joinChar '\n' (('\n' :: l) :: M) = '\n' :: joinChar '\n' (l :: M) := by
  cases M <;> rfl

theorem lodScan_accum (marker : Str) (M junk : List Str) (acc : Str)
    (hsepM : startsW marker sepLine = false)
    (hM : ∀ l ∈ M, startsW marker l = false ∧ ¬(trim l = sepLine) ∧
      startsW "LOD-".data l = false ∧ ¬(l = qastoneClose)) :
    lodScan marker (M ++ sepLine :: junk) true acc = joinChar '\n' (acc :: M) := by
  induction M generalizing acc with
  | nil =>
    rw [List.nil_append, lodScan, if_neg (by simp [hsepM]),
      if_pos rfl, if_pos (by decide)]
    rfl
  | cons l M' ih =>
    rcases hM l (List.mem_cons_self l M') with ⟨h1, h2, h3, h4⟩
    rw [List.cons_append, lodScan, if_neg (by simp [h1]), if_pos rfl,
      if_neg (by simp [h2, h3, h4])]
    rw [ih (acc ++ '\n' :: l) fun x hx => hM x (List.mem_cons_of_mem l hx)]
    rw [show acc ++ '\n' :: l = acc ++ ('\n' :: l) from rfl, joinChar_cons_pre,
      joinChar_cons_nl]
    rfl

theorem headerLines_no_marker2 (bh gc st cr sa : Str) (lc : Nat) (ft : Str) :
    ∀ l ∈ stoneHeaderLines bh gc st cr sa lc ft,
      startsW (lodMarker 2) l = false := by
  intro l hl
  unfold stoneHeaderLines at hl
  simp only [List.mem_cons, List.mem_singleton] at hl
  rcases hl with rfl | rfl | rfl | rfl | rfl | rfl | rfl | rfl | rfl | h
  · rfl
  · rfl
  · rfl
  · rfl
  · rfl
  · rfl
  · rfl
  · rfl
  · rfl
  · exact absurd h (by simp)

/-- C1 (amended): the LOD-2 round trip holds for content that survives the
line scanner unchanged: nonempty, trim-invariant, not containing the
substring `LOD-`, and with no line that is a lone `─`, the close marker, or
whitespace-edged — provided the stone's metadata and timestamp are
newline-free and no `lods` map is supplied. -/
theorem C1_roundtrip_amended (o : StoneOpts) (ts : Str)
    (hgc : '\n' ∉ o.glow_channel) (hst : '\n' ∉ o.stone_type)
    (hsa : '\n' ∉ o.source_agent) (hts : '\n' ∉ ts) (hlods : o.lods = none)
    (hc0 : o.content ≠ []) (hct : trim o.content = o.content)
    (hnoLOD : occurs "LOD-".data o.content = false)
    (hlines : ∀ l ∈ splitLines o.content,
      trim l = l ∧ ¬(l = sepLine) ∧ ¬(l = qastoneClose)) :
    extractLOD (buildStone o ts) 2 = o.content := by
  have hsplit := splitLines_buildStone o ts hgc hst hsa hts hlods
  rcases hq : splitLines o.content with _ | ⟨q, qs⟩
  · exact absurd hq (splitLines_ne_nil _)
  have hB2 : blockLines 2 (generateLODs o.content).l2 =
      ("LOD-".data ++ natToDec 2 ++ ':' :: ' ' :: q) :: (qs ++ [sepLine]) := by
    rw [show (generateLODs o.content).l2 = o.content from rfl,
      blockLines, if_neg hc0]
    rw [show splitLines o.content = q :: qs from hq]
  have hB3 : blockLines 3 (generateLODs o.content).l3 = [] := rfl
  rw [extractLOD, if_pos (buildStone_isQAStone o ts), hsplit, hB2, hB3]
  simp only [List.append_assoc, List.append_nil, List.nil_append,
    List.cons_append]
  rw [lodScan_skip _ _ _ _ (headerLines_no_marker2 _ _ _ _ _ _ _)]
  have hocc0 : occurs "LOD-".data (generateLODs o.content).l0 = false :=
    generateLODs_l0_no_occ (by decide) (by decide) (by decide) hnoLOD
  have hocc1 : occurs "LOD-".data (generateLODs o.content).l1 = false :=
    generateLODs_l1_no_occ (by decide) (by decide) hnoLOD
  rw [lodScan_skip _ _ _ _ (blockLines_no_marker2 0 marker2_not_block0 hocc0)]
  rw [lodScan_skip _ _ _ _ (blockLines_no_marker2 1 marker2_not_block1 hocc1)]
  have hE : 'L' :: 'O' :: 'D' :: '-' :: (natToDec 2 ++ ':' :: ' ' :: q) =
      lodMarker 2 ++ (' ' :: q) := by
    simp [lodMarker, List.append_assoc]
  have hf : startsW (lodMarker 2)
      ('L' :: 'O' :: 'D' :: '-' :: (natToDec 2 ++ ':' :: ' ' :: q)) = true := by
    rw [hE]
    exact startsW_self_append _ _
  rw [lodScan, if_pos hf]
  have hdrop : ('L' :: 'O' :: 'D' :: '-' ::
      (natToDec 2 ++ ':' :: ' ' :: q)).drop (lodMarker 2).length = ' ' :: q := by
    rw [hE]
    exact List.drop_left _ _
  rw [hdrop]
  have hq_mem : q ∈ splitLines o.content := hq ▸ List.mem_cons_self q qs
  rw [trim_ws_cons (by decide) q, (hlines q hq_mem).1]
  rw [lodScan_accum (lodMarker 2) qs [qastoneClose] q (by decide) ?hM]
  case hM =>
    intro l hl
    have hl_mem : l ∈ splitLines o.content := hq ▸ List.mem_cons_of_mem q hl
    rcases hlines l hl_mem with ⟨h1, h2, h3⟩
    refine ⟨?_, ?_, ?_, h3⟩
    · rw [lodMarker2_split]
      exact startsW_mono_false (lod_lines_no_startsW hnoLOD l hl_mem)
    · rw [h1]
      exact h2
    · exact lod_lines_no_startsW hnoLOD l hl_mem
  rw [show joinChar '\n' (q :: qs) = joinChar '\n' (splitLines o.content) by
    rw [hq]]
  rw [show joinChar '\n' (splitLines o.content) = o.content from
    joinChar_splitChar '\n' o.content]
  exact hct

/-- Witness for C1 (amended) at a concrete two-line content. -/
theorem C1_roundtrip_amended_witness :
    ('\n' ∉ "context".data) ∧ ('\n' ∉ "clipboard".data) ∧ ('\n' ∉ "user".data) ∧
    ('\n' ∉ "2026-10-12T00:00:00.000Z".data) ∧
    (StoneOpts.lods { content := "Hello world\nSecond line".data } = none) ∧
    ("Hello world\nSecond line".data ≠ ([] : Str)) ∧
    (trim "Hello world\nSecond line".data = "Hello world\nSecond line".data) ∧
    (occurs "LOD-".data "Hello world\nSecond line".data = false) ∧
    (∀ l ∈ splitLines "Hello world\nSecond line".data,
      trim l = l ∧ ¬(l = sepLine) ∧ ¬(l = qastoneClose)) ∧
    extractLOD (buildStone { content := "Hello world\nSecond line".data }
      "2026-10-12T00:00:00.000Z".data) 2 = "Hello world\nSecond line".data :=
  ⟨by decide, by decide, by decide, by decide, rfl, by decide, by decide,
   by decide, by decide,
   C1_roundtrip_amended { content := "Hello world\nSecond line".data }
     "2026-10-12T00:00:00.000Z".data
     (by decide) (by decide) (by decide) (by decide) rfl
     (by decide) (by decide) (by decide) (by decide)⟩

theorem swallow_ws {w : Str} (hw : ∀ c ∈ w, isWsChar c = true) (y : Str) :
    splitRunsAux isWsChar true (w ++ y) = splitRunsAux isWsChar true y := by
  induction w with
  | nil => rfl
  | cons c w' ih =>
    rw [List.cons_append]
    rw [show splitRunsAux isWsChar true (c :: (w' ++ y)) =
      if isWsChar c then splitRunsAux isWsChar true (w' ++ y)
      else
        match splitRunsAux isWsChar false (w' ++ y) with
        | [] => [[c]]
        | p :: ps => (c :: p) :: ps from by
        simp only [splitRunsAux]
        split <;> rfl]
    rw [if_pos (hw c (List.mem_cons_self c w'))]
    exact ih fun x hx => hw x (List.mem_cons_of_mem c hx)

theorem aux_true_eq_false_of_head {y : Str} (hy : y ≠ [])
    (hyh : isWsChar (y.head hy) = false) :
    splitRunsAux isWsChar true y = splitRunsAux isWsChar false y := by
  cases y with
  | nil => exact absurd rfl hy
  | cons d y' =>
    simp only [List.head_cons] at hyh
    simp only [splitRunsAux, hyh]
    rfl

theorem aux_false_ws_run {r y : Str} (hr : r ≠ [])
    (hrw : ∀ c ∈ r, isWsChar c = true) (hy : y ≠ [])
    (hyh : isWsChar (y.head hy) = false) :
    splitRunsAux isWsChar false (r ++ y) = [] :: splitRunsAux isWsChar false y := by
  cases r with
  | nil => exact absurd rfl hr
  | cons rc r' =>
    rw [List.cons_append]
    rw [show splitRunsAux isWsChar false (rc :: (r' ++ y)) =
      if isWsChar rc then [] :: splitRunsAux isWsChar true (r' ++ y)
      else
        match splitRunsAux isWsChar false (r' ++ y) with
        | [] => [[rc]]
        | p :: ps => (rc :: p) :: ps from by
        simp only [splitRunsAux]
        split <;> rfl]
    rw [if_pos (hrw rc (List.mem_cons_self rc r'))]
    rw [swallow_ws (fun x hx => hrw x (List.mem_cons_of_mem rc hx)) y]
    rw [aux_true_eq_false_of_head hy hyh]

theorem aux_split_at_run :
    ∀ (n : Nat) (x : Str), x.length ≤ n → ∀ (hx : x ≠ []),
      isWsChar (x.getLast hx) = false →
      ∀ {r y : Str}, r ≠ [] → (∀ c ∈ r, isWsChar c = true) →
      ∀ (hy : y ≠ []), isWsChar (y.head hy) = false →
      ∀ b, splitRunsAux isWsChar b (x ++ r ++ y) =
        splitRunsAux isWsChar b x ++ splitRunsAux isWsChar false y := by
  intro n
  induction n with
  | zero =>
    intro x hlen hx
    exact absurd (List.length_eq_zero.mp (Nat.le_zero.mp hlen)) hx
  | succ n ih =>
    intro x hlen hx hxl r y hr hrw hy hyh b
    rcases x with _ | ⟨c, x'⟩
    · exact absurd rfl hx
    · rcases x' with _ | ⟨c2, x''⟩
      · -- x = [c], c is the last char, hence not whitespace
        simp only [List.getLast_singleton] at hxl
        rw [show ([c] ++ r ++ y) = c :: (r ++ y) by simp]
        rw [show splitRunsAux isWsChar b (c :: (r ++ y)) =
          match splitRunsAux isWsChar false (r ++ y) with
          | [] => [[c]]
          | p :: ps => (c :: p) :: ps from by
          simp only [splitRunsAux, hxl]
          rfl]
        rw [aux_false_ws_run hr hrw hy hyh]
        rw [show splitRunsAux isWsChar b [c] = [[c]] from by
          simp only [splitRunsAux, hxl]
          rfl]
        rfl
      · -- x = c :: x'' with x'' nonempty tail chain
        have hx' : (c2 :: x'') ≠ [] := by simp
        have hxl' : isWsChar ((c2 :: x'').getLast hx') = false := by
          have : (c :: c2 :: x'').getLast hx = (c2 :: x'').getLast hx' :=
            List.getLast_cons hx'
          rw [← this]
          exact hxl
        have hlen' : (c2 :: x'').length ≤ n := by
          simp only [List.length_cons] at hlen ⊢
          omega
        have ihx := ih (c2 :: x'') hlen' hx' hxl' hr hrw hy hyh
        rcases hc : isWsChar c
        · -- c not whitespace: both flags take the else branch
          have hne := splitRunsAux_ne_nil isWsChar ((c2 :: x'') ++ r ++ y) false
          rcases h0 : splitRunsAux isWsChar false ((c2 :: x'') ++ r ++ y) with
            _ | ⟨p, ps⟩
          · exact absurd h0 hne
          · have hne2 := splitRunsAux_ne_nil isWsChar (c2 :: x'') false
            rcases h1 : splitRunsAux isWsChar false (c2 :: x'') with _ | ⟨p1, ps1⟩
            · exact absurd h1 hne2
            · have hrel : p = p1 ∧ ps = ps1 ++ splitRunsAux isWsChar false y := by
                have := ihx false
                rw [h0, h1] at this
                rw [List.cons_append] at this
                exact ⟨(List.cons.injEq .. ▸ this).1, (List.cons.injEq .. ▸ this).2⟩
              rw [show ((c :: c2 :: x'') ++ r ++ y) = c :: ((c2 :: x'') ++ r ++ y) by
                simp]
              rw [show splitRunsAux isWsChar b (c :: ((c2 :: x'') ++ r ++ y)) =
                match splitRunsAux isWsChar false ((c2 :: x'') ++ r ++ y) with
                | [] => [[c]]
                | p :: ps => (c :: p) :: ps from by
                simp only [splitRunsAux, hc]
                rfl]
              rw [show splitRunsAux isWsChar b (c :: c2 :: x'') =
                match splitRunsAux isWsChar false (c2 :: x'') with
                | [] => [[c]]
                | p :: ps => (c :: p) :: ps from by
                simp only [splitRunsAux, hc]
                rfl]
              rw [h0, h1]
              rw [hrel.1, hrel.2]
              rfl
        · -- c is whitespace
          have ihtrue := ihx true
          rw [show ((c :: c2 :: x'') ++ r ++ y) = c :: ((c2 :: x'') ++ r ++ y) by
            simp]
          cases b
          · rw [show splitRunsAux isWsChar false (c :: ((c2 :: x'') ++ r ++ y)) =
              [] :: splitRunsAux isWsChar true ((c2 :: x'') ++ r ++ y) from by
              simp only [splitRunsAux, hc]
              rfl]
            rw [show splitRunsAux isWsChar false (c :: c2 :: x'') =
              [] :: splitRunsAux isWsChar true (c2 :: x'') from by
              simp only [splitRunsAux, hc]
              rfl]
            rw [ihtrue]
            rfl
          · rw [show splitRunsAux isWsChar true (c :: ((c2 :: x'') ++ r ++ y)) =
              splitRunsAux isWsChar true ((c2 :: x'') ++ r ++ y) from by
              simp only [splitRunsAux, hc]
              rfl]
            rw [show splitRunsAux isWsChar true (c :: c2 :: x'') =
              splitRunsAux isWsChar true (c2 :: x'') from by
              simp only [splitRunsAux, hc]
              rfl]
            exact ihtrue

theorem splitWs_sep_append {x r y : Str} (hx : x ≠ [])
    (hxl : isWsChar (x.getLast hx) = false) (hr : r ≠ [])
    (hrw : ∀ c ∈ r, isWsChar c = true) (hy : y ≠ [])
    (hyh : isWsChar (y.head hy) = false) :
    splitWs (x ++ r ++ y) = splitWs x ++ splitWs y :=
  aux_split_at_run x.length x (Nat.le_refl _) hx hxl hr hrw hy hyh false

theorem joinStr_cons_ne (sep p : Str) (Q : List Str) (hQ : Q ≠ []) :
    joinStr sep (p :: Q) = p ++ sep ++ joinStr sep Q := by
  cases Q with
  | nil => exact absurd rfl hQ
  | cons q r => rfl

theorem joinStr_snoc (sep e : Str) :
    ∀ (P : List Str), P ≠ [] →
      joinStr sep (P ++ [e]) = joinStr sep P ++ sep ++ e := by
  intro P
  induction P with
  | nil => intro h; exact absurd rfl h
  | cons p P' ih =>
    intro _
    cases P' with
    | nil => rfl
    | cons q r =>
      rw [List.cons_append, joinStr_cons_ne sep p ((q :: r) ++ [e]) (by simp),
        joinStr_cons_ne sep p (q :: r) (by simp), ih (by simp)]
      simp [List.append_assoc]

theorem getLast_append_right {l₁ l₂ : Str} (h : l₂ ≠ []) :
    (l₁ ++ l₂).getLast? = l₂.getLast? := by
  rw [← List.head?_reverse, ← List.head?_reverse, List.reverse_append]
  cases hrev : l₂.reverse with
  | nil => exact absurd (by simpa using congrArg List.reverse hrev) h
  | cons c r => simp

theorem joinStr_edges (sep : Str) :
    ∀ (P : List Str), (∀ p ∈ P, p ≠ [] ∧ trim p = p) → P ≠ [] →
      joinStr sep P ≠ [] ∧
      (∀ c, (joinStr sep P).head? = some c → isWsChar c = false) ∧
      (∀ c, (joinStr sep P).getLast? = some c → isWsChar c = false) := by
  intro P
  induction P with
  | nil => intro _ h; exact absurd rfl h
  | cons p P' ih =>
    intro hall _
    rcases hall p (List.mem_cons_self p P') with ⟨hpne, hptrim⟩
    cases P' with
    | nil =>
      refine ⟨by simpa [joinStr] using hpne, ?_, ?_⟩
      · intro c hc
        rcases p with _ | ⟨d, r⟩
        · exact absurd rfl hpne
        · simp only [joinStr, List.head?_cons, Option.some.injEq] at hc
          subst hc
          exact trim_head_nonws (s := d :: r) (by rw [hptrim])
      · intro c hc
        simp only [joinStr] at hc
        exact trim_last_nonws (s := p) (by rw [hptrim]; exact hc)
    | cons q r =>
      have hP' : (q :: r) ≠ [] := by simp
      rcases ih (fun x hx => hall x (List.mem_cons_of_mem p hx)) hP' with
        ⟨hjne, _, hjlast⟩
      rw [joinStr_cons_ne sep p (q :: r) hP']
      refine ⟨by simp [hpne], ?_, ?_⟩
      · intro c hc
        rcases p with _ | ⟨d, t⟩
        · exact absurd rfl hpne
        · simp only [List.cons_append, List.head?_cons, Option.some.injEq] at hc
          subst hc
          exact trim_head_nonws (s := d :: t) (by rw [hptrim])
      · intro c hc
        rw [List.append_assoc, getLast_append_right (by simp [hjne])] at hc
        rw [getLast_append_right hjne] at hc
        exact hjlast c hc

theorem estimate_join_snoc (P : List Str) (e : Str)
    (hP : ∀ p ∈ P, p ≠ [] ∧ trim p = p) (hene : e ≠ []) (hetr : trim e = e) :
    estimateTokens (joinStr "\n\n".data P) ≤
      estimateTokens (joinStr "\n\n".data (P ++ [e])) := by
  cases P with
  | nil => exact Nat.zero_le _
  | cons p P' =>
    rcases joinStr_edges "\n\n".data (p :: P') hP (by simp) with ⟨hjne, _, hjlast⟩
    rw [joinStr_snoc "\n\n".data e (p :: P') (by simp)]
    have hxl : isWsChar ((joinStr "\n\n".data (p :: P')).getLast hjne) = false :=
      hjlast _ (List.getLast?_eq_getLast _ hjne)
    have heh : ∀ (he : e ≠ []), isWsChar (e.head he) = false := by
      intro he
      rcases e with _ | ⟨d, t⟩
      · exact absurd rfl he
      · rw [List.head_cons]
        exact trim_head_nonws (s := d :: t) (by rw [hetr])
    have hsplit := splitWs_sep_append hjne hxl (r := "\n\n".data) (by simp)
      (by decide) hene (heh hene)
    have hbigne : joinStr "\n\n".data (p :: P') ++ "\n\n".data ++ e ≠ [] := by
      intro h
      rcases List.append_eq_nil.mp h with ⟨h1, h2⟩
      exact hene h2
    rw [estimateTokens, if_neg hjne, estimateTokens, if_neg hbigne, hsplit,
      List.length_append]
    exact Nat.div_le_div_right (by omega)

theorem estimate_join_prefix :
    ∀ (E P : List Str), (∀ p ∈ P ++ E, p ≠ [] ∧ trim p = p) →
      estimateTokens (joinStr "\n\n".data P) ≤
        estimateTokens (joinStr "\n\n".data (P ++ E)) := by
  intro E
  induction E with
  | nil => intro P _; simp
  | cons e E' ih =>
    intro P hall
    have he := hall e (by simp)
    have h1 : estimateTokens (joinStr "\n\n".data P) ≤
        estimateTokens (joinStr "\n\n".data (P ++ [e])) :=
      estimate_join_snoc P e (fun p hp => hall p (by simp [hp])) he.1 he.2
    have h2 : estimateTokens (joinStr "\n\n".data (P ++ [e])) ≤
        estimateTokens (joinStr "\n\n".data ((P ++ [e]) ++ E')) :=
      ih (P ++ [e]) (by intro p hp; apply hall; simpa [List.mem_append, or_assoc] using hp)
    calc estimateTokens (joinStr "\n\n".data P) ≤ _ := h1
      _ ≤ _ := h2
      _ = _ := by rw [List.append_assoc]; rfl

theorem extractLODsUpTo_split (content : Str) (L : Nat) (hL : L ≤ 3) :
    ∃ E, extractLODsUpTo content 3 = extractLODsUpTo content L ++ E := by
  refine ⟨((List.range (3 - L)).map (L + 1 + ·)).filterMap fun level =>
    let c := extractLOD content level
    if c = [] then none else some (level, c), ?_⟩
  rw [extractLODsUpTo, extractLODsUpTo]
  rw [show 3 + 1 = (L + 1) + (3 - L) by omega, List.range_add,
    List.filterMap_append]

theorem extractLODsUpTo_pieces (content : Str) (hstone : isQAStone content = true)
    (M : Nat) :
    ∀ p ∈ (extractLODsUpTo content M).map (·.2), p ≠ [] ∧ trim p = p := by
  intro p hp
  simp only [extractLODsUpTo, List.mem_map, List.mem_filterMap] at hp
  rcases hp with ⟨⟨lvl, c⟩, ⟨lv, _, hf⟩, hsnd⟩
  dsimp only at hf hsnd
  subst hsnd
  by_cases hc : extractLOD content lv = []
  · rw [if_pos hc] at hf; cases hf
  · rw [if_neg hc] at hf
    injection hf with h1
    injection h1 with h2a h2b
    subst h2b
    refine ⟨hc, ?_⟩
    rw [extractLOD, if_pos hstone, trim_trim]

/-- C3: for stone content and `loadedLevel ≤ 3`, `getTokenSavings` returns a
present `loadedTokens` with `headerTokens ≤ loadedTokens ≤ fullTokens +
headerTokens`, `saved = fullTokens - loadedTokens`, and `percentage` equal to
`Math.round(100 * saved / fullTokens)` (0 when `fullTokens = 0`); the claim's
stronger `fullTokens ≥ loadedTokens` fails (see the counterexample). -/
theorem C3_token_accounting_amended (content : Str) (loadedLevel : Nat)
    (hstone : isQAStone content = true) (hL : loadedLevel ≤ 3) :
    ∃ lt, (getTokenSavings content loadedLevel).loadedTokens = some lt ∧
      (getTokenSavings content loadedLevel).headerTokens ≤ lt ∧
      lt ≤ (getTokenSavings content loadedLevel).fullTokens +
        (getTokenSavings content loadedLevel).headerTokens ∧
      (getTokenSavings content loadedLevel).saved =
        ((getTokenSavings content loadedLevel).fullTokens : Int) - (lt : Int) ∧
      ((getTokenSavings content loadedLevel).fullTokens ≠ 0 →
        (getTokenSavings content loadedLevel).percentage =
          jsRound (((getTokenSavings content loadedLevel).saved : ℚ) /
            ((getTokenSavings content loadedLevel).fullTokens : ℚ) * 100)) ∧
      ((getTokenSavings content loadedLevel).fullTokens = 0 →
        (getTokenSavings content loadedLevel).percentage = 0) := by
  have hmain : estimateTokens
      (joinStr "\n\n".data ((extractLODsUpTo content loadedLevel).map (·.2))) ≤
      estimateTokens
        (joinStr "\n\n".data ((extractLODsUpTo content 3).map (·.2))) := by
    rcases extractLODsUpTo_split content loadedLevel hL with ⟨E, hE⟩
    rw [hE, List.map_append]
    refine estimate_join_prefix (E.map (·.2))
      ((extractLODsUpTo content loadedLevel).map (·.2)) ?_
    rw [← List.map_append, ← hE]
    exact extractLODsUpTo_pieces content hstone 3
  rw [getTokenSavings, if_pos hstone]
  dsimp only
  refine ⟨_, rfl, Nat.le_add_left _ _, Nat.add_le_add_right hmain _, rfl, ?_, ?_⟩
  · intro hne
    rw [if_pos (Nat.pos_of_ne_zero hne)]
    exact jsRound_eq_div _ _ (Nat.pos_of_ne_zero hne)
  · intro h0
    rw [h0]
    simp

theorem C3_token_accounting_amended_witness :
    isQAStone "§QASTONE§\nglow_channel: task\n─\nLOD-0: hi\n─\n§/QASTONE§".data
      = true ∧ (0 : Nat) ≤ 3 ∧
    ∃ lt,
      (getTokenSavings
        "§QASTONE§\nglow_channel: task\n─\nLOD-0: hi\n─\n§/QASTONE§".data
        0).loadedTokens = some lt ∧
      (getTokenSavings
        "§QASTONE§\nglow_channel: task\n─\nLOD-0: hi\n─\n§/QASTONE§".data
        0).headerTokens ≤ lt ∧
      lt ≤ (getTokenSavings
        "§QASTONE§\nglow_channel: task\n─\nLOD-0: hi\n─\n§/QASTONE§".data
        0).fullTokens +
        (getTokenSavings
          "§QASTONE§\nglow_channel: task\n─\nLOD-0: hi\n─\n§/QASTONE§".data
          0).headerTokens ∧
      (getTokenSavings
        "§QASTONE§\nglow_channel: task\n─\nLOD-0: hi\n─\n§/QASTONE§".data
        0).saved =
        ((getTokenSavings
          "§QASTONE§\nglow_channel: task\n─\nLOD-0: hi\n─\n§/QASTONE§".data
          0).fullTokens : Int) - (lt : Int) ∧
      ((getTokenSavings
        "§QASTONE§\nglow_channel: task\n─\nLOD-0: hi\n─\n§/QASTONE§".data
        0).fullTokens ≠ 0 →
        (getTokenSavings
          "§QASTONE§\nglow_channel: task\n─\nLOD-0: hi\n─\n§/QASTONE§".data
          0).percentage =
          jsRound (((getTokenSavings
            "§QASTONE§\nglow_channel: task\n─\nLOD-0: hi\n─\n§/QASTONE§".data
            0).saved : ℚ) /
            ((getTokenSavings
              "§QASTONE§\nglow_channel: task\n─\nLOD-0: hi\n─\n§/QASTONE§".data
              0).fullTokens : ℚ) * 100)) ∧
      ((getTokenSavings
        "§QASTONE§\nglow_channel: task\n─\nLOD-0: hi\n─\n§/QASTONE§".data
        0).fullTokens = 0 →
        (getTokenSavings
          "§QASTONE§\nglow_channel: task\n─\nLOD-0: hi\n─\n§/QASTONE§".data
          0).percentage = 0) :=
  ⟨by decide, by decide,
    C3_token_accounting_amended
      "§QASTONE§\nglow_channel: task\n─\nLOD-0: hi\n─\n§/QASTONE§".data 0
      (by decide) (by decide)⟩
